import Mathlib

/-!
Verification of the xuexinwen content annotation pipeline.

Shallow embedding of the core pipeline of the repository:
tokenization (backend/preprocessing/segmentation.py), level classification
(backend/preprocessing/tocfl_tagger.py), entity normalization
(backend/preprocessing/entity_extraction.py), bilingual section alignment
(backend/article/article.py, backend/fetch_articles.py) and markup generation
(backend/postprocessing/html_wrapper.py, backend/article/article_processor.py).

Strings are embedded as lists of characters (`Str`), Python dictionaries as
association lists with Python dict semantics (`dictGet` / `dictSet`: first
binding wins on read, assignment overwrites in place), Python exceptions as
`Except String`, and the external collaborators (jieba, the LLM fallback
classifier, the entity extraction service) as explicit inputs.
-/

set_option autoImplicit false

/-- Python strings, embedded as lists of characters. -/
abbrev Str := List Char

deriving instance DecidableEq for Except

/-! ## Python dictionary primitives -/

/-- Python dict read: the first binding of the key (assignments keep the
original position, so the first binding is the current one). -/
def dictGet {α β : Type} [DecidableEq α] : List (α × β) → α → Option β
  | [], _ => none
  | (k0, v0) :: rest, k => if k0 = k then some v0 else dictGet rest k

/-- Python dict assignment: overwrite in place if the key is present,
append otherwise (insertion-order semantics of Python dicts). -/
def dictSet {α β : Type} [DecidableEq α] : List (α × β) → α → β → List (α × β)
  | [], k, v => [(k, v)]
  | (k0, v0) :: rest, k, v =>
      if k0 = k then (k0, v) :: rest else (k0, v0) :: dictSet rest k v

/-! ## Character classes

`pyWordChar` models the Python regex class backslash-w (word characters) and
`pySpace` models backslash-s, over the alphabet exercised by this development:
ASCII plus the CJK Unified Ideographs block and the ideographic space.  Note
that the underscore (code point 0x5F) is a word character for the regex engine
even though its Unicode general category is Pc (connector punctuation). -/

/-- Word characters of the Python regex engine: ASCII digits, ASCII letters,
the underscore, and CJK unified ideographs. -/
def pyWordChar (c : Char) : Bool :=
  (0x30 ≤ c.toNat && c.toNat ≤ 0x39) ||
  (0x41 ≤ c.toNat && c.toNat ≤ 0x5A) ||
  (0x61 ≤ c.toNat && c.toNat ≤ 0x7A) ||
  c.toNat == 0x5F ||
  (0x4E00 ≤ c.toNat && c.toNat ≤ 0x9FFF)

/-- Whitespace characters of Python (str.strip and the regex class
backslash-s): ASCII whitespace plus the ideographic space U+3000. -/
def pySpace (c : Char) : Bool :=
  c.toNat == 0x20 || c.toNat == 0x9 || c.toNat == 0xA || c.toNat == 0xB ||
  c.toNat == 0xC || c.toNat == 0xD || c.toNat == 0x3000

/-- Characters whose Unicode general category is punctuation (P*), restricted
to the code points appearing in this development: the ASCII punctuation
characters of category P (including the underscore, category Pc) and the
common CJK punctuation marks. -/
def unicodePunct (c : Char) : Bool :=
  c.toNat ∈ [0x21, 0x22, 0x23, 0x25, 0x26, 0x27, 0x28, 0x29, 0x2A, 0x2C,
    0x2D, 0x2E, 0x2F, 0x3A, 0x3B, 0x3F, 0x40, 0x5B, 0x5C, 0x5D, 0x5F,
    0x7B, 0x7D, 0x3001, 0x3002, 0xFF01, 0xFF0C, 0xFF1F]

/-- Python str.strip: drop leading and trailing whitespace. -/
def pyStrip (s : Str) : Str :=
  ((s.dropWhile pySpace).reverse.dropWhile pySpace).reverse

/-- Python slicing s[a:b] for non-negative bounds. -/
def pySliceStr (s : Str) (a b : Nat) : Str := (s.take b).drop a

/-- Python list indexing l[i]: non-negative indices count from the front,
negative indices count from the back, out of range reads fail. -/
def pyIndex {α : Type} (l : List α) (i : Int) : Option α :=
  let j : Int := if i < 0 then (l.length : Int) + i else i
  if j < 0 then none else l.get? j.toNat

/-! ## Segmenter (backend/preprocessing/segmentation.py)

The jieba library is an external collaborator; following section 4.2 of the
spec it is modelled as longest-match tokenization against a dictionary, with
the crucial operational fact that `jieba.add_word` mutates a single module
level dictionary shared by every call.  The dictionary is the list of words
added so far; the frequency argument (a constant 1000 in the source) only
tunes the jieba ranking and is dropped by the longest-match model. -/

/-- Modelled from the spec: the shared module-level jieba dictionary
(the base lexicon of single characters is implicit: `jiebaCut` falls back to
single-character tokens, so only added multi-character words matter). -/
abbrev JiebaDict := List Str

/-- Does `t` begin with `w`? -/
def beginsWith : Str → Str → Bool
  | _, [] => true
  | [], _ :: _ => false
  | a :: as, b :: bs => a == b && beginsWith as bs

/-- Longest dictionary word matching at the head of `t` (empty if none). -/
def bestMatch (d : JiebaDict) (t : Str) : Str :=
  d.foldl (fun best w =>
    if beginsWith t w && best.length < w.length then w else best) []

/-- Modelled from the spec: jieba.cut as longest-match tokenization against
the dictionary, falling back to single characters.  Structural recursion on a
fuel argument bounded by the text length (each step consumes at least one
character). -/
def jiebaCutFuel (d : JiebaDict) : Nat → Str → List Str
  | _, [] => []
  | 0, _ :: _ => []
  | fuel + 1, c :: rest =>
    let m := bestMatch d (c :: rest)
    if 2 ≤ m.length then m :: jiebaCutFuel d fuel (rest.drop (m.length - 1))
    else [c] :: jiebaCutFuel d fuel rest

/-- Modelled from the spec: jieba.cut (cut_all=False). -/
def jiebaCut (d : JiebaDict) (t : Str) : List Str := jiebaCutFuel d t.length t

/-- Modelled from the spec: jieba.add_word mutates the shared dictionary. -/
def jiebaAddWord (d : JiebaDict) (w : Str) : JiebaDict :=
  if w ∈ d then d else d ++ [w]

/-- Segmenter._clean_word: strip whitespace, return none when the regex
anchored-[backslash-s-backslash-W]-plus matches the stripped word (one or more
characters, each whitespace or non-word). -/
def cleanWord (w : Str) : Option Str :=
  let w := pyStrip w
  if w ≠ [] ∧ w.all (fun c => pySpace c || !pyWordChar c) then none
  else some w

/-- The clean-and-filter loop of Segmenter.segment_text: keep the cleaned
word when it is truthy (neither none nor the empty string). -/
def collectCleaned : List Str → List Str
  | [] => []
  | w :: ws =>
    match cleanWord w with
    | some c => if c = [] then collectCleaned ws else c :: collectCleaned ws
    | none => collectCleaned ws

/-- Segmenter.add_words_to_dictionary: add each word to the shared jieba
dictionary (the freq argument is dropped by the longest-match model). -/
def addWordsToDictionary (d : JiebaDict) (words : List Str) : JiebaDict :=
  words.foldl jiebaAddWord d

/-- Segmenter.segment_text.  The shared jieba dictionary is threaded
explicitly: the function returns the token list together with the dictionary
state left behind for the next call (custom words are added to the module
level dictionary and are never removed). -/
def segmentText (d : JiebaDict) (text : Str) (customWords : List Str) :
    List Str × JiebaDict :=
  let d1 := if customWords ≠ [] then addWordsToDictionary d customWords else d
  (collectCleaned (jiebaCut d1 text), d1)

/-! ## Article (backend/article/article.py)

The offset-indexed Article.  The identity fields (article_id, url, date,
source, authors, titles, image_url, metadata) play no role in the verified
operations and are omitted; graded_content is an association list because a
Python dict maps each difficulty level to at most one rewritten text. -/

structure ArticleIdx where
  mandarin_content : Str
  english_content : Str
  mandarin_section_indices : List (Nat × Nat)
  english_section_indices : List (Nat × Nat)
  graded_content : List (String × Str)
deriving DecidableEq, Repr

/-- Article.get_section_content: guard rejects only an index at-or-beyond
either length, then Python list indexing (negative indices count from the
back) selects the offset pairs and the slices are stripped. -/
def getSectionContent (a : ArticleIdx) (index : Int) :
    Except String (Str × Str) :=
  if (a.mandarin_section_indices.length : Int) ≤ index ∨
     (a.english_section_indices.length : Int) ≤ index then
    Except.error "IndexError: Section index out of range"
  else
    match pyIndex a.mandarin_section_indices index,
          pyIndex a.english_section_indices index with
    | some mi, some ei =>
        Except.ok (pyStrip (pySliceStr a.mandarin_content mi.1 mi.2),
                   pyStrip (pySliceStr a.english_content ei.1 ei.2))
    | _, _ => Except.error "IndexError: list index out of range"

/-- Segmenter.segment_article: segment the original content, then each graded
version, threading the shared jieba dictionary through the calls (the custom
words are re-added on every call). -/
def segmentArticle (d : JiebaDict) (a : ArticleIdx) (customWords : List Str) :
    List (String × List Str) × JiebaDict :=
  let native := segmentText d a.mandarin_content customWords
  a.graded_content.foldl
    (fun acc lc =>
      let seg := segmentText acc.2 lc.2 customWords
      (acc.1 ++ [(lc.1, seg.1)], seg.2))
    ([("native", native.1)], native.2)

/-! ## Old sections-based Article (backend/article.py) and
backend/fetch_articles.py -/

/-- ArticleSection of backend/article.py (graded versions start out absent). -/
structure ArticleSection where
  mandarin : Str
  english : Str
  graded : List (String × Str) := []
deriving DecidableEq, Repr

/-- Old Article of backend/article.py: content lives in the section list.
The identity fields are omitted as above. -/
structure OldArticle where
  sections : List ArticleSection
deriving DecidableEq, Repr

/-- The fixed paragraph separator (the old Article joins sections with a
double newline; section 4.5 of the spec calls it the fixed double-separator). -/
def sectionSeparator : Str := ['\n', '\n']

/-- The double-newline join of Old Article.mandarin_content. -/
def joinSections : List ArticleSection → Str
  | [] => []
  | [s] => s.mandarin
  | s :: rest => s.mandarin ++ sectionSeparator ++ joinSections rest

/-- Old Article.mandarin_content: sections joined with the double newline. -/
def oldMandarinContent (a : OldArticle) : Str :=
  joinSections a.sections

/-- Raw article data consumed by create_article_from_raw (the fields that
feed the section construction). -/
structure RawArticleData where
  mandarin_paragraphs : List Str
  english_paragraphs : List Str
deriving DecidableEq, Repr

/-- The section-construction loop of create_article_from_raw
(backend/fetch_articles.py lines 29 to 35): zip the parallel paragraph
lists into ArticleSection values.  zip stops at the shorter list, so a
length mismatch is silently truncated; no check and no exception exist in
the source. -/
def createArticleFromRaw (raw : RawArticleData) : OldArticle :=
  { sections :=
      List.zipWith (fun m e => { mandarin := m, english := e })
        raw.mandarin_paragraphs raw.english_paragraphs }

/-! ## Section alignment (spec section 4.5)

The offset-producing constructor of the indexed Article is absent from src/
(the test suite imports backend.fetching.fetch_articles, a module that is not
in the tree), so the alignment is modelled from the spec. -/

/-- Modelled from the spec: the full text of section 4.5 align, the
paragraphs joined with the fixed double-separator. -/
def joinParagraphs : List Str → Str
  | [] => []
  | [p] => p
  | p :: ps => p ++ sectionSeparator ++ joinParagraphs ps

/-- Modelled from the spec: the offset table of section 4.5 align; offsets[i]
is the exact span of paragraph i inside the joined text, the end excluding
the separator. -/
def alignOffsets : List Str → Nat → List (Nat × Nat)
  | [], _ => []
  | p :: ps, start =>
      (start, start + p.length) ::
        alignOffsets ps (start + p.length + sectionSeparator.length)

/-- Modelled from the spec: align both languages of an article into the
indexed Article (equal-length paragraph lists are the callers obligation
checked by the claims, not re-checked here). -/
def alignArticle (mand eng : List Str) : ArticleIdx :=
  { mandarin_content := joinParagraphs mand
    english_content := joinParagraphs eng
    mandarin_section_indices := alignOffsets mand 0
    english_section_indices := alignOffsets eng 0
    graded_content := [] }

/-! ## TOCFL tagger (backend/preprocessing/tocfl_tagger.py) -/

/-- An entry of the loaded word dictionary: the CEFR level and the canonical
(simplified) written form. -/
structure WordInfo where
  level : String
  simplified : Str
deriving DecidableEq, Repr

/-- One row of the TOCFL CSV source. -/
structure TocflRow where
  traditional : Str
  simplified : Str
  cefr_level : String
deriving DecidableEq, Repr

/-- TOCFLTagger._load_tocfl_dictionary: both written forms of each row map to
the level and the simplified form; later rows overwrite earlier bindings.
(The jieba.add_word side effects of the loader mutate the same shared
dictionary as the Segmenter; they do not affect the loaded table.) -/
def loadTocflDictionary (rows : List TocflRow) : List (Str × WordInfo) :=
  rows.foldl
    (fun wd row =>
      dictSet
        (dictSet wd row.traditional
          { level := row.cefr_level, simplified := row.simplified })
        row.simplified
        { level := row.cefr_level, simplified := row.simplified })
    []

/-- TOCFLTagger.get_word_info: plain dictionary lookup. -/
def getWordInfo (wd : List (Str × WordInfo)) (w : Str) : Option WordInfo :=
  dictGet wd w

/-- The fixed CEFR level list of the tagger, beginner to advanced with the
unknown sentinel last. -/
def cefrLevels : List String :=
  ["A0", "A1", "A2", "B1", "B2", "C1", "C2", "unknown"]

/-- TOCFLTagger.create_ordered_dict: one empty group per level, in order. -/
def createOrderedDict : List (String × List Str) :=
  cefrLevels.map (fun l => (l, []))

/-- Python set.add on the insertion-ordered list model of a set. -/
def setAdd (s : List Str) (w : Str) : List Str :=
  if w ∈ s then s else s ++ [w]

/-- result[level].add(word): Python raises KeyError when the level is not a
key of the ordered dict. -/
def resultAdd (res : List (String × List Str)) (level : String) (w : Str) :
    Except String (List (String × List Str)) :=
  match dictGet res level with
  | none => Except.error "KeyError"
  | some s => Except.ok (dictSet res level (setAdd s w))

/-- TOCFLTagger.classify_unknown_words: empty input short-circuits to the
empty map, otherwise the result of LLMClient.classify_words is returned as
is.  The external call is an input: some m is a parsed response, none is the
Python None that classify_words returns when the request or the JSON parse
fails (and also stands for a raised error, which aborts identically). -/
def classifyUnknownWords (unknown : List Str)
    (fallback : Option (List (Str × String))) :
    Option (List (Str × String)) :=
  if unknown = [] then some [] else fallback

/-- The first pass of categorize_words: known words are added to their level
group under the canonical simplified form, the rest are collected. -/
def categorizeKnown (wd : List (Str × WordInfo)) :
    List Str → List (String × List Str) → List Str →
    Except String (List (String × List Str) × List Str)
  | [], res, unknown => Except.ok (res, unknown)
  | w :: ws, res, unknown =>
    match getWordInfo wd w with
    | some info => do
        let res2 ← resultAdd res info.level info.simplified
        categorizeKnown wd ws res2 unknown
    | none => categorizeKnown wd ws res (setAdd unknown w)

/-- The second pass of categorize_words: every classifier result is added to
its level group and removed from the unknown set. -/
def categorizeClassified :
    List (Str × String) → List (String × List Str) → List Str →
    Except String (List (String × List Str) × List Str)
  | [], res, unknown => Except.ok (res, unknown)
  | (w, l) :: rest, res, unknown => do
      let res2 ← resultAdd res l w
      categorizeClassified rest res2 (unknown.filter (fun u => u ≠ w))

/-- The third pass of categorize_words: words the classifier did not return
land in the unknown group. -/
def addRemainingUnknown :
    List Str → List (String × List Str) →
    Except String (List (String × List Str))
  | [], res => Except.ok res
  | w :: ws, res => do
      let res2 ← resultAdd res "unknown" w
      addRemainingUnknown ws res2

/-- Lexicographic comparison on embedded strings (Python string order for the
final sorted lists). -/
def strLe : Str → Str → Bool
  | [], _ => true
  | _ :: _, [] => false
  | a :: as, b :: bs =>
    if a.toNat < b.toNat then true
    else if b.toNat < a.toNat then false
    else strLe as bs

/-- Insertion into a sorted list (sorted(list(s)) of the source). -/
def insertSorted (w : Str) : List Str → List Str
  | [] => [w]
  | x :: xs => if strLe w x then w :: x :: xs else x :: insertSorted w xs

/-- Python sorted on a list of strings. -/
def sortStrs : List Str → List Str
  | [] => []
  | x :: xs => insertSorted x (sortStrs xs)

/-- The final dict comprehension of categorize_words: sort each group and
keep only the non-empty ones. -/
def finalizeGroups (res : List (String × List Str)) :
    List (String × List Str) :=
  (res.map (fun p => (p.1, sortStrs p.2))).filter (fun p => p.2 ≠ [])

/-- TOCFLTagger.categorize_words.  The fallback classifier response is an
input (see classifyUnknownWords); a None response aborts with the
AttributeError that None.items() raises in the source. -/
def categorizeWords (wd : List (Str × WordInfo)) (words : List Str)
    (fallback : Option (List (Str × String))) :
    Except String (List (String × List Str)) := do
  let p1 ← categorizeKnown wd words createOrderedDict []
  let p2 ←
    if p1.2 ≠ [] then
      match classifyUnknownWords p1.2 fallback with
      | none => Except.error "AttributeError: NoneType has no attribute items"
      | some m => categorizeClassified m p1.1 p1.2
    else Except.ok p1
  let res ← addRemainingUnknown p2.2 p2.1
  Except.ok (finalizeGroups res)

/-- The first pass of get_word_level_map: known words map to their level, the
rest are collected. -/
def levelMapKnown (wd : List (Str × WordInfo)) :
    List Str → List (Str × String) → List Str →
    List (Str × String) × List Str
  | [], acc, unknown => (acc, unknown)
  | w :: ws, acc, unknown =>
    match getWordInfo wd w with
    | some info => levelMapKnown wd ws (dictSet acc w info.level) unknown
    | none => levelMapKnown wd ws acc (setAdd unknown w)

/-- TOCFLTagger.get_word_level_map.  When there are unknown words the
classifier response is merged in with dict.update and the words it omitted
default to the unknown level; a None response aborts with the TypeError that
dict.update(None) raises in the source. -/
def getWordLevelMap (wd : List (Str × WordInfo)) (words : List Str)
    (fallback : Option (List (Str × String))) :
    Except String (List (Str × String)) :=
  let p1 := levelMapKnown wd words [] []
  if p1.2 ≠ [] then
    match classifyUnknownWords p1.2 fallback with
    | none => Except.error "TypeError: NoneType is not iterable"
    | some m =>
        let merged := m.foldl (fun acc kv => dictSet acc kv.1 kv.2) p1.1
        Except.ok (p1.2.foldl
          (fun acc w =>
            if dictGet m w = none then dictSet acc w "unknown" else acc)
          merged)
  else Except.ok p1.1

/-! ## Entity extraction (backend/preprocessing/entity_extraction.py) -/

/-- One raw entity entry of the extraction response.  Absent fields are none;
entity.get("english", "") makes an absent gloss the empty string, which is
falsy like an absent word or type. -/
structure RawEntity where
  word : Option Str
  type : Option String
  english : Option Str
deriving DecidableEq, Repr

/-- The static category-name table of EntityExtractor. -/
def typeMapping : List (String × String) :=
  [("person", "names"), ("place", "places"),
   ("organization", "organizations"), ("other", "misc")]

/-- The four-key result skeleton of extract_entities. -/
def initEntityResult : List (String × List (Str × Str)) :=
  [("names", []), ("places", []), ("organizations", []), ("misc", [])]

/-- The body of the extraction loop: skip the entry unless word, type and
gloss are all truthy, map the type through the category table (an unmapped
type is skipped), then result[category][word] = gloss. -/
def processEntity (result : List (String × List (Str × Str)))
    (e : RawEntity) : List (String × List (Str × Str)) :=
  let word := e.word.getD []
  let englishDef := e.english.getD []
  if word = [] ∨ e.type.getD "" = "" ∨ englishDef = [] then result
  else
    match dictGet typeMapping (e.type.getD "") with
    | some category =>
        dictSet result category
          (dictSet ((dictGet result category).getD []) word englishDef)
    | none => result

/-- EntityExtractor.extract_entities: the LLM response is an input; a falsy
response (None from a failed call or parse, or an empty list) yields the
empty four-key table. -/
def extractEntities (entities : Option (List RawEntity)) :
    List (String × List (Str × Str)) :=
  match entities with
  | none => initEntityResult
  | some es => es.foldl processEntity initEntityResult

/-- EntityExtractor.get_all_entities: the entity words of every category,
flattened in category order. -/
def getAllEntities (ed : List (String × List (Str × Str))) : List Str :=
  ed.foldl (fun acc cat => acc ++ cat.2.map Prod.fst) []

/-! ## HTML wrapper (backend/postprocessing/html_wrapper.py) -/

/-- Python html.escape of one character (quote=True). -/
def htmlEscapeChar (c : Char) : Str :=
  if c = '&' then ['&', 'a', 'm', 'p', ';']
  else if c = '<' then ['&', 'l', 't', ';']
  else if c = '>' then ['&', 'g', 't', ';']
  else if c = '\x22' then ['&', 'q', 'u', 'o', 't', ';']
  else if c = '\x27' then ['&', '#', 'x', '2', '7', ';']
  else [c]

/-- Python html.escape. -/
def htmlEscape (s : Str) : Str :=
  s.foldr (fun c acc => htmlEscapeChar c ++ acc) []

/-- Python str.lower over the level names (ASCII). -/
def strLower (s : String) : String := String.mk (s.data.map Char.toLower)

/-- The " ".join of the attribute list. -/
def joinWithSpace : List Str → Str
  | [] => []
  | [a] => a
  | a :: rest => a ++ [' '] ++ joinWithSpace rest

/-- HTMLWrapper.wrap_word: a span carrying the lower-cased level class, the
escaped optional definition and pinyin (both omitted when falsy), the entity
flag, and the escaped word. -/
def wrapWord (word : Str) (level : String) (definition : Option Str)
    (pinyin : Option Str) (isEntity : Bool) : Str :=
  let word := htmlEscape word
  let attrs := [("class=\"word-" ++ strLower level ++ "\"").data]
  let attrs := attrs ++
    (match definition with
     | some d => if d ≠ [] then
         ["data-definition=\"".data ++ htmlEscape d ++ "\"".data] else []
     | none => [])
  let attrs := attrs ++
    (match pinyin with
     | some p => if p ≠ [] then
         ["data-pinyin=\"".data ++ htmlEscape p ++ "\"".data] else []
     | none => [])
  let attrs := attrs ++ (if isEntity then ["data-entity=\"true\"".data] else [])
  "<span ".data ++ joinWithSpace attrs ++ [('>' : Char)] ++ word ++
    "</span>".data

/-- The all_entities flattening: dict.update of every category table in
order. -/
def flattenEntities (ed : List (String × List (Str × Str))) :
    List (Str × Str) :=
  ed.foldl (fun acc cat => cat.2.foldl (fun a kv => dictSet a kv.1 kv.2) acc) []

/-- Modelled from the spec: HTMLWrapper.process_text is called by
ArticleProcessor.process_article and exercised by the repository test suite,
but the method itself is absent from src/ (html_wrapper.py defines only
wrap_word and process_article).  Section 4.6 annotate: for each token in
order resolve the level (default unknown), the gloss by flat entity lookup
and the entity flag, wrap each token and concatenate with no added
separators.  This is also exactly the body of the process_content helper
inside HTMLWrapper.process_article. -/
def processText (words : List Str) (wordLevels : List (Str × String))
    (entityDefs : List (String × List (Str × Str)))
    (pinyinDict : Option (List (Str × Str))) : Str :=
  let allEntities := flattenEntities entityDefs
  (words.map (fun w =>
    wrapWord w ((dictGet wordLevels w).getD "unknown")
      (dictGet allEntities w)
      (pinyinDict.bind (fun pd => dictGet pd w))
      ((dictGet allEntities w).isSome))).foldr (· ++ ·) []

/-! ## Article processor (backend/article/article_processor.py) -/

/-- The result record of ArticleProcessor.process_article. -/
structure ProcessedArticle where
  html_versions : List (String × Str)
  entities : List (String × List (Str × Str))
  word_levels : List (String × List Str)
deriving DecidableEq, Repr

/-- ArticleProcessor.process_article with simplify=False.  The external
collaborators are inputs: the entity-extraction response feeds
extractEntities, and the two classifier calls (get_word_level_map at step 4
and categorize_words at step 5 each make their own LLM request) receive their
own responses.  Steps: extract entities, flatten the entity words, segment
every version with the entity words as custom vocabulary, tag the tokens of
the original content, then wrap every segmented version with the single
word-level map. -/
def processArticlePipeline (d : JiebaDict) (wd : List (Str × WordInfo))
    (a : ArticleIdx) (entityResponse : Option (List RawEntity))
    (fallbackMap fallbackCat : Option (List (Str × String))) :
    Except String ProcessedArticle := do
  let entities := extractEntities entityResponse
  let entityWords := getAllEntities entities
  let segmented := (segmentArticle d a entityWords).1
  let words := (dictGet segmented "native").getD []
  let wordLevelMap ← getWordLevelMap wd words fallbackMap
  let wordLevels ← categorizeWords wd words fallbackCat
  let htmlVersions := segmented.map
    (fun lv => (lv.1, processText lv.2 wordLevelMap entities none))
  Except.ok
    { html_versions := htmlVersions
      entities := entities
      word_levels := wordLevels }

/-! ## Derived notions used by the statements -/

/-- The members of all groups of a grouped-by-level table, concatenated. -/
def groupUnion (groups : List (String × List Str)) : List Str :=
  groups.foldr (fun g acc => g.2 ++ acc) []

/-- The canonical form a token contributes to the grouped output: the
simplified form of its dictionary entry when the lookup hits, the token
itself otherwise. -/
def canonicalize (wd : List (Str × WordInfo)) (w : Str) : Str :=
  match getWordInfo wd w with
  | some info => info.simplified
  | none => w

/-- A raw entity entry that survives the extraction filter: truthy word,
truthy type that the category table maps, truthy gloss. -/
def entityWellFormed (e : RawEntity) : Prop :=
  e.word.getD [] ≠ [] ∧ e.type.getD "" ≠ "" ∧ e.english.getD [] ≠ [] ∧
    (dictGet typeMapping (e.type.getD "")).isSome

instance (e : RawEntity) : Decidable (entityWellFormed e) := by
  unfold entityWellFormed
  infer_instance

/-! ## Helper lemmas: dictionaries, sets, sorting -/

lemma dictGet_dictSet_self {α β : Type} [DecidableEq α]
    (l : List (α × β)) (k : α) (v : β) :
    dictGet (dictSet l k v) k = some v := by
  induction l with
  | nil => simp [dictGet, dictSet]
  | cons p rest ih =>
      obtain ⟨k0, v0⟩ := p
      by_cases h : k0 = k <;> simp [dictGet, dictSet, h, ih]

lemma dictGet_dictSet_ne {α β : Type} [DecidableEq α]
    (l : List (α × β)) (k k2 : α) (v : β) (h : k2 ≠ k) :
    dictGet (dictSet l k v) k2 = dictGet l k2 := by
  have hne : ¬ k = k2 := fun hh => h hh.symm
  induction l with
  | nil => simp [dictGet, dictSet, hne]
  | cons p rest ih =>
      obtain ⟨k0, v0⟩ := p
      by_cases h0 : k0 = k
      · subst h0
        simp [dictGet, dictSet, hne]
      · simp [dictGet, dictSet, h0, ih]

lemma dictSet_map_fst_of_mem {α β : Type} [DecidableEq α]
    (l : List (α × β)) (k : α) (v : β) (h : k ∈ l.map Prod.fst) :
    (dictSet l k v).map Prod.fst = l.map Prod.fst := by
  induction l with
  | nil => simp at h
  | cons p rest ih =>
      obtain ⟨k0, v0⟩ := p
      by_cases h0 : k0 = k
      · simp [dictSet, h0]
      · simp only [List.map_cons, List.mem_cons] at h
        rcases h with h | h
        · exact absurd h.symm h0
        · simp [dictSet, h0, ih h]

lemma dictGet_isSome_iff_mem {α β : Type} [DecidableEq α]
    (l : List (α × β)) (k : α) :
    (dictGet l k).isSome ↔ k ∈ l.map Prod.fst := by
  induction l with
  | nil => simp [dictGet]
  | cons p rest ih =>
      obtain ⟨k0, v0⟩ := p
      by_cases h : k0 = k
      · subst h
        simp [dictGet]
      · have hne : ¬ k = k0 := fun hh => h hh.symm
        simp [dictGet, h, ih, hne]

lemma dictGet_mem {α β : Type} [DecidableEq α]
    (l : List (α × β)) (k : α) (v : β) (h : dictGet l k = some v) :
    (k, v) ∈ l := by
  induction l with
  | nil => simp [dictGet] at h
  | cons p rest ih =>
      obtain ⟨k0, v0⟩ := p
      by_cases h0 : k0 = k
      · subst h0
        simp [dictGet] at h
        simp [h]
      · simp [dictGet, h0] at h
        exact List.mem_cons_of_mem _ (ih h)

lemma dictGet_of_mem_nodup {α β : Type} [DecidableEq α]
    (l : List (α × β)) (k : α) (v : β) (hmem : (k, v) ∈ l)
    (hnd : (l.map Prod.fst).Nodup) : dictGet l k = some v := by
  induction l with
  | nil => simp at hmem
  | cons p rest ih =>
      obtain ⟨k0, v0⟩ := p
      simp only [List.map_cons, List.nodup_cons] at hnd
      rcases List.mem_cons.mp hmem with h | h
      · obtain ⟨hk, hv⟩ := Prod.mk.injEq .. ▸ h
        simp [dictGet, hk.symm, hv]
      · have hne : k0 ≠ k := by
          intro he
          subst he
          exact hnd.1 (List.mem_map.mpr ⟨(k0, v), h, rfl⟩)
        simp [dictGet, hne, ih h hnd.2]

lemma dictGet_map_value {α β γ : Type} [DecidableEq α]
    (l : List (α × β)) (f : β → γ) (k : α) :
    dictGet (l.map (fun p => (p.1, f p.2))) k = (dictGet l k).map f := by
  induction l with
  | nil => simp [dictGet]
  | cons p rest ih =>
      obtain ⟨k0, v0⟩ := p
      by_cases h : k0 = k <;> simp [dictGet, h, ih]

lemma mem_setAdd (s : List Str) (w t : Str) :
    t ∈ setAdd s w ↔ t = w ∨ t ∈ s := by
  by_cases h : w ∈ s
  · simp only [setAdd, if_pos h]
    constructor
    · exact fun ht => Or.inr ht
    · rintro (rfl | ht)
      · exact h
      · exact ht
  · simp [setAdd, if_neg h, or_comm]

lemma mem_insertSorted (w t : Str) (l : List Str) :
    t ∈ insertSorted w l ↔ t = w ∨ t ∈ l := by
  induction l with
  | nil => simp [insertSorted]
  | cons x xs ih =>
      by_cases h : strLe w x
      · simp [insertSorted, h]
      · simp only [insertSorted, if_neg h, List.mem_cons, ih]
        tauto

lemma mem_sortStrs (t : Str) (l : List Str) :
    t ∈ sortStrs l ↔ t ∈ l := by
  induction l with
  | nil => simp [sortStrs]
  | cons x xs ih => simp [sortStrs, mem_insertSorted, ih]

lemma groupUnion_nil : groupUnion [] = [] := rfl

lemma groupUnion_cons (g : String × List Str) (gs : List (String × List Str)) :
    groupUnion (g :: gs) = g.2 ++ groupUnion gs := rfl

lemma mem_groupUnion_dictSet_setAdd (res : List (String × List Str))
    (level : String) (s : List Str) (w : Str)
    (h : dictGet res level = some s) (t : Str) :
    t ∈ groupUnion (dictSet res level (setAdd s w)) ↔
      t = w ∨ t ∈ groupUnion res := by
  induction res with
  | nil => simp [dictGet] at h
  | cons p rest ih =>
      obtain ⟨k0, v0⟩ := p
      by_cases h0 : k0 = level
      · subst h0
        simp only [dictGet, if_true, eq_self_iff_true, Option.some.injEq] at h
        subst h
        simp [dictSet, groupUnion_cons, mem_setAdd, or_assoc]
      · simp only [dictGet, if_neg h0] at h
        simp only [dictSet, if_neg h0, groupUnion_cons, List.mem_append, ih h]
        tauto

/-! ## Claim C1 -/

/-- C1: the claim says extra vocabulary passed to one segmentation call must
not affect the tokenization of a later call made without that vocabulary (no
shared mutable dictionary state).  The code violates this: jieba.add_word
mutates the module-level dictionary, so after segment_text("音樂", ["音樂"])
a later segment_text("音樂") still tokenizes the custom word as one token,
while a call against the untouched dictionary splits it.  This theorem
evaluates the code at that failing input. -/
theorem segmentText_custom_words_leak_across_calls :
    (segmentText [] "音樂".data ["音樂".data]).1 = ["音樂".data] ∧
    (segmentText (segmentText [] "音樂".data ["音樂".data]).2
        "音樂".data []).1 = ["音樂".data] ∧
    (segmentText [] "音樂".data []).1 = [['音'], ['樂']] ∧
    (segmentText (segmentText [] "音樂".data ["音樂".data]).2
        "音樂".data []).1 ≠ (segmentText [] "音樂".data []).1 := by
  decide

/-! ## Claim C2 -/

/-- C2: the claim says that when the fallback classifier call raises or
returns an error result, get_word_level_map still returns normally with every
fallback word assigned the unknown tier.  The code violates this (and its own
test, test_error_handling): classify_words returns None on failure and
get_word_level_map runs dict.update(None), which raises TypeError.  This
theorem evaluates the code at the failing input of that test: the words
學習 and 未知詞 with a failed fallback call. -/
theorem getWordLevelMap_aborts_on_fallback_failure :
    getWordLevelMap
        (loadTocflDictionary
          [{ traditional := "學習".data, simplified := "学习".data,
             cefr_level := "A2" }])
        ["學習".data, "未知詞".data] none
      = Except.error "TypeError: NoneType is not iterable" ∧
    getWordLevelMap
        (loadTocflDictionary
          [{ traditional := "學習".data, simplified := "学习".data,
             cefr_level := "A2" }])
        ["學習".data, "未知詞".data] none
      ≠ Except.ok [("學習".data, "A2"), ("未知詞".data, "unknown")] := by
  decide

/-! ## Claim C3 -/

/-- C3 counterexample: the claim says that unequal-length paragraph lists
make the construction fail with a section-count-mismatch error and that no
truncated article is produced.  The code zips the two lists: with 2 Mandarin
and 3 English paragraphs an article is produced, it has 2 sections, and no
exception of any kind is raised (the construction is total). -/
theorem createArticleFromRaw_truncates_silently :
    (createArticleFromRaw
        { mandarin_paragraphs := ["第一".data, "第二".data],
          english_paragraphs := ["one".data, "two".data, "three".data] }
      ).sections
      = [{ mandarin := "第一".data, english := "one".data },
         { mandarin := "第二".data, english := "two".data }] := by
  decide

/-- C3 amended: constructing an article from paragraph lists of unequal
length does not fail; the longer list is silently truncated and the produced
article has exactly min(len mandarin, len english) sections. -/
theorem createArticleFromRaw_section_count (raw : RawArticleData)
    (h : raw.mandarin_paragraphs.length ≠ raw.english_paragraphs.length) :
    (createArticleFromRaw raw).sections.length
      = min raw.mandarin_paragraphs.length raw.english_paragraphs.length := by
  simp [createArticleFromRaw]

/-- C3 witness: the amended theorem applied to the concrete 2-versus-3
input. -/
theorem createArticleFromRaw_section_count_witness :
    (["第一".data, "第二".data] : List Str).length
        ≠ (["one".data, "two".data, "three".data] : List Str).length ∧
    (createArticleFromRaw
        { mandarin_paragraphs := ["第一".data, "第二".data],
          english_paragraphs := ["one".data, "two".data, "three".data] }
      ).sections.length
      = min (["第一".data, "第二".data] : List Str).length
          (["one".data, "two".data, "three".data] : List Str).length :=
  ⟨by decide,
   createArticleFromRaw_section_count
     { mandarin_paragraphs := ["第一".data, "第二".data],
       english_paragraphs := ["one".data, "two".data, "three".data] }
     (by decide)⟩

/-! ## Claim C7 -/

/-- C7 counterexample: the claim says that for every entry of the loaded
dictionary both written forms resolve to the same level and canonical form.
When one row uses as traditional form the simplified form of an earlier row
(as with 乾/干), the later row overwrites the shared binding: the entry
乾/干 at level B1 resolves to B1 through its traditional form but to A1
through its simplified form. -/
theorem loadTocflDictionary_collision_breaks_lookup :
    getWordInfo
        (loadTocflDictionary
          [{ traditional := "乾".data, simplified := "干".data,
             cefr_level := "B1" },
           { traditional := "干".data, simplified := "干".data,
             cefr_level := "A1" }])
        "乾".data
      = some { level := "B1", simplified := "干".data } ∧
    getWordInfo
        (loadTocflDictionary
          [{ traditional := "乾".data, simplified := "干".data,
             cefr_level := "B1" },
           { traditional := "干".data, simplified := "干".data,
             cefr_level := "A1" }])
        "干".data
      = some { level := "A1", simplified := "干".data } ∧
    ("B1" : String) ≠ "A1" := by
  decide

/-! ## Claim C8 -/

/-- C8 counterexample: the claim says no returned token consists solely of
punctuation characters by Unicode category.  The underscore has Unicode
category Pc (punctuation) but is a regex word character, so the filter of
_clean_word keeps it: segmenting the text consisting of one underscore
returns the pure-punctuation token underscore. -/
theorem segmentText_returns_pure_punctuation_token :
    (segmentText [] ['_'] []).1 = [['_']] ∧
    (['_'] : Str).all (fun c => unicodePunct c || pySpace c) = true := by
  decide

/-! ## Claim C6 -/

/-- C6 counterexample: the claim says the align/get_section round trip
reproduces the original paragraph pair byte-for-byte after trimming the
separator.  The offsets already exclude the separator, and get_section_content
strips the slice, so a paragraph with its own trailing whitespace comes back
shortened: aligning the single paragraph "a " yields "a". -/
theorem getSectionContent_strips_paragraph_bytes :
    getSectionContent (alignArticle [['a', ' ']] [['b']]) 0
      = Except.ok (['a'], ['b']) ∧
    (['a'] : Str) ≠ ['a', ' '] := by
  decide

/-! ## Claim C5 -/

/-- C5 counterexample: the claim says the union of all groups equals the set
of distinct input tokens.  A dictionary hit is grouped under its canonical
simplified form, not under the input token: categorizing the single
traditional token 學習 yields the group containing only 学习, so the union
does not contain the input token. -/
theorem categorizeWords_union_misses_input_token :
    categorizeWords
        (loadTocflDictionary
          [{ traditional := "學習".data, simplified := "学习".data,
             cefr_level := "A2" }])
        ["學習".data] (some [])
      = Except.ok [("A2", ["学习".data])] ∧
    "學習".data ∉ groupUnion [("A2", ["学习".data])] ∧
    "學習".data ∈ ["學習".data] := by
  refine ⟨by decide, ?_, by decide⟩
  decide

/-! ## Claim C9 -/

/-- C9 counterexample: the claim says every well-formed entry appears under
its mapped category with its gloss.  Python dict assignment overwrites: two
well-formed entries with the same word and category keep only the later
gloss, so the first entry no longer appears with its own gloss. -/
theorem extractEntities_overwrites_earlier_gloss :
    extractEntities
        (some [{ word := some "馬".data, type := some "person",
                 english := some "g1".data },
               { word := some "馬".data, type := some "person",
                 english := some "g2".data }])
      = [("names", [("馬".data, "g2".data)]), ("places", []),
         ("organizations", []), ("misc", [])] ∧
    entityWellFormed { word := some "馬".data, type := some "person",
                       english := some "g1".data } ∧
    ("馬".data, "g1".data) ∉ [("馬".data, "g2".data)] := by
  refine ⟨by decide, by decide, ?_⟩
  decide

/-! ## Claim C10 -/

lemma pyIndex_neg {α : Type} (l : List α) (i : Int)
    (h1 : -(l.length : Int) ≤ i) (h3 : i < 0) :
    pyIndex l i = l.get? (l.length - (-i).toNat) := by
  simp only [pyIndex, if_pos h3]
  rw [if_neg (show ¬ ((l.length : Int) + i < 0) by omega)]
  congr 1
  omega

/-- C10: for a negative index no smaller than minus the section count, the
guard of get_section_content (which only rejects an index at-or-beyond the
length) does not fire, and the method returns the pair selected by Python
negative indexing, counted from the end of the offset lists. -/
theorem getSectionContent_negative_index (a : ArticleIdx) (i : Int)
    (h1 : -(a.mandarin_section_indices.length : Int) ≤ i)
    (h2 : -(a.english_section_indices.length : Int) ≤ i)
    (h3 : i < 0) :
    ∃ mi ei,
      a.mandarin_section_indices.get?
          (a.mandarin_section_indices.length - (-i).toNat) = some mi ∧
      a.english_section_indices.get?
          (a.english_section_indices.length - (-i).toNat) = some ei ∧
      getSectionContent a i =
        Except.ok (pyStrip (pySliceStr a.mandarin_content mi.1 mi.2),
                   pyStrip (pySliceStr a.english_content ei.1 ei.2)) := by
  have hmlt : a.mandarin_section_indices.length - (-i).toNat
      < a.mandarin_section_indices.length := by omega
  have helt : a.english_section_indices.length - (-i).toNat
      < a.english_section_indices.length := by omega
  refine ⟨a.mandarin_section_indices.get ⟨_, hmlt⟩,
          a.english_section_indices.get ⟨_, helt⟩,
          List.get?_eq_get hmlt, List.get?_eq_get helt, ?_⟩
  have hcond : ¬ ((a.mandarin_section_indices.length : Int) ≤ i ∨
      (a.english_section_indices.length : Int) ≤ i) := by omega
  simp only [getSectionContent, if_neg hcond, pyIndex_neg _ _ h1 h3,
    pyIndex_neg _ _ h2 h3, List.get?_eq_get hmlt, List.get?_eq_get helt]

/-- C10 witness: the theorem applied to a two-section article at index -1. -/
theorem getSectionContent_negative_index_witness :
    -(((alignArticle ["甲".data, "乙".data]
          ["x".data, "y".data]).mandarin_section_indices.length : Int)) ≤ -1 ∧
    -(((alignArticle ["甲".data, "乙".data]
          ["x".data, "y".data]).english_section_indices.length : Int)) ≤ -1 ∧
    (-1 : Int) < 0 ∧
    ∃ mi ei,
      (alignArticle ["甲".data, "乙".data]
          ["x".data, "y".data]).mandarin_section_indices.get?
          ((alignArticle ["甲".data, "乙".data]
             ["x".data, "y".data]).mandarin_section_indices.length
            - ((-(-1) : Int)).toNat) = some mi ∧
      (alignArticle ["甲".data, "乙".data]
          ["x".data, "y".data]).english_section_indices.get?
          ((alignArticle ["甲".data, "乙".data]
             ["x".data, "y".data]).english_section_indices.length
            - ((-(-1) : Int)).toNat) = some ei ∧
      getSectionContent (alignArticle ["甲".data, "乙".data]
          ["x".data, "y".data]) (-1) =
        Except.ok
          (pyStrip (pySliceStr (alignArticle ["甲".data, "乙".data]
              ["x".data, "y".data]).mandarin_content mi.1 mi.2),
           pyStrip (pySliceStr (alignArticle ["甲".data, "乙".data]
              ["x".data, "y".data]).english_content ei.1 ei.2)) :=
  ⟨by decide, by decide, by decide,
   getSectionContent_negative_index _ (-1) (by decide) (by decide) (by decide)⟩

/-! ## Claim C8 -/

lemma cleanWord_eq_some (w tok : Str) (h : cleanWord w = some tok) :
    tok = pyStrip w ∧
      (tok = [] ∨ ¬ tok.all (fun c => pySpace c || !pyWordChar c)) := by
  unfold cleanWord at h
  by_cases hcond : pyStrip w ≠ [] ∧
      (pyStrip w).all (fun c => pySpace c || !pyWordChar c)
  · rw [if_pos hcond] at h
    cases h
  · rw [if_neg hcond] at h
    cases h
    push_neg at hcond
    by_cases hz : pyStrip w = []
    · exact ⟨rfl, Or.inl hz⟩
    · exact ⟨rfl, Or.inr (by simpa using hcond hz)⟩

lemma mem_collectCleaned (ws : List Str) (tok : Str)
    (h : tok ∈ collectCleaned ws) :
    ∃ w ∈ ws, cleanWord w = some tok ∧ tok ≠ [] := by
  induction ws with
  | nil => simp [collectCleaned] at h
  | cons w ws ih =>
      cases hc : cleanWord w with
      | none =>
          simp only [collectCleaned, hc] at h
          obtain ⟨w2, hw2, hcw⟩ := ih h
          exact ⟨w2, List.mem_cons_of_mem _ hw2, hcw⟩
      | some c =>
          by_cases hz : c = []
          · simp only [collectCleaned, hc, hz, if_true, eq_self_iff_true] at h
            obtain ⟨w2, hw2, hcw⟩ := ih h
            exact ⟨w2, List.mem_cons_of_mem _ hw2, hcw⟩
          · simp only [collectCleaned, hc, if_neg hz] at h
            rcases List.mem_cons.mp h with rfl | h2
            · exact ⟨w, List.mem_cons_self _ _, hc, hz⟩
            · obtain ⟨w2, hw2, hcw⟩ := ih h2
              exact ⟨w2, List.mem_cons_of_mem _ hw2, hcw⟩

/-- C8 amended: no token returned by segment_text is empty or consists solely
of whitespace, every returned token contains at least one regex word
character, and the empty input yields the empty sequence.  (The original
claim fails only in that a word character may itself be punctuation by
Unicode category: the underscore, category Pc, is kept.) -/
theorem segmentText_tokens_have_word_chars :
    (∀ (d : JiebaDict) (text : Str) (customWords : List Str),
       ∀ tok ∈ (segmentText d text customWords).1,
         tok ≠ [] ∧ ¬ tok.all pySpace ∧ tok.any pyWordChar) ∧
    (∀ (d : JiebaDict) (customWords : List Str),
       (segmentText d [] customWords).1 = []) := by
  constructor
  · intro d text customWords tok htok
    obtain ⟨w, _, hcw, hne⟩ := mem_collectCleaned _ _ htok
    obtain ⟨_, hcase⟩ := cleanWord_eq_some _ _ hcw
    rcases hcase with hz | hall
    · exact absurd hz hne
    · have hf : (tok.all fun c => pySpace c || !pyWordChar c) = false :=
        Bool.eq_false_iff.mpr hall
      obtain ⟨c, hcmem, hcfalse⟩ := List.all_eq_false.mp hf
      have hcs : pySpace c = false ∧ pyWordChar c = true := by
        constructor
        · cases h1 : pySpace c
          · rfl
          · rw [h1] at hcfalse
            simp at hcfalse
        · cases h2 : pyWordChar c
          · rw [h2] at hcfalse
            simp at hcfalse
          · rfl
      refine ⟨hne, ?_, ?_⟩
      · intro hall2
        have := List.all_eq_true.mp hall2 c hcmem
        rw [hcs.1] at this
        cases this
      · exact List.any_eq_true.mpr ⟨c, hcmem, hcs.2⟩
  · intro d customWords
    rfl

/-- C8 witness: the theorem applied to the text 你。 with the empty
dictionary, at the returned token 你. -/
theorem segmentText_tokens_have_word_chars_witness :
    (['你'] : Str) ∈ (segmentText [] "你。".data []).1 ∧
    ((['你'] : Str) ≠ [] ∧ ¬ (['你'] : Str).all pySpace ∧
      (['你'] : Str).any pyWordChar) ∧
    (segmentText [] ([] : Str) ["某詞".data]).1 = [] :=
  ⟨by decide,
   segmentText_tokens_have_word_chars.1 [] "你。".data [] ['你'] (by decide),
   segmentText_tokens_have_word_chars.2 [] ["某詞".data]⟩

lemma length_alignOffsets (ps : List Str) (s : Nat) :
    (alignOffsets ps s).length = ps.length := by
  induction ps generalizing s with
  | nil => rfl
  | cons p ps ih => simp [alignOffsets, ih]

lemma alignOffsets_add (ps : List Str) (k s : Nat) :
    alignOffsets ps (k + s)
      = (alignOffsets ps s).map (fun q => (k + q.1, k + q.2)) := by
  induction ps generalizing s with
  | nil => rfl
  | cons p ps ih =>
      simp only [alignOffsets, List.map_cons]
      refine congrArg₂ List.cons ?_ ?_
      · simp [Nat.add_assoc]
      · rw [show k + s + p.length + sectionSeparator.length
            = k + (s + p.length + sectionSeparator.length) by omega, ih]

lemma pySlice_zero_len (p t : Str) : pySliceStr (p ++ t) 0 p.length = p := by
  simp [pySliceStr, List.take_left]

lemma pySlice_append_shift (x t : Str) (a b : Nat) :
    pySliceStr (x ++ t) (x.length + a) (x.length + b) = pySliceStr t a b := by
  simp [pySliceStr, List.take_append, List.drop_append]

lemma pyIndex_ofNat {α : Type} (l : List α) (i : Nat) :
    pyIndex l (i : Int) = l.get? i := by
  have h1 : ¬ ((i : Int) < 0) := by omega
  simp only [pyIndex]
  rw [if_neg h1]
  rw [if_neg h1]
  congr 1

lemma alignOffsets_get_slice (ps : List Str) (i : Nat) (hi : i < ps.length) :
    ∃ q para, (alignOffsets ps 0).get? i = some q ∧ ps.get? i = some para ∧
      pySliceStr (joinParagraphs ps) q.1 q.2 = para := by
  induction ps generalizing i with
  | nil => simp at hi
  | cons p ps ih =>
      cases i with
      | zero =>
          refine ⟨(0, p.length), p, by simp [alignOffsets], rfl, ?_⟩
          cases ps with
          | nil =>
              show pySliceStr p 0 p.length = p
              simp [pySliceStr]
          | cons p2 ps2 =>
              show pySliceStr (p ++ sectionSeparator ++ joinParagraphs (p2 :: ps2))
                  0 p.length = p
              rw [List.append_assoc]
              exact pySlice_zero_len _ _
      | succ j =>
          have hj : j < ps.length := by
            simpa using Nat.lt_of_succ_lt_succ (by simpa using hi)
          obtain ⟨q2, para, hq2, hpara, hs2⟩ := ih j hj
          refine ⟨((p.length + sectionSeparator.length) + q2.1,
                   (p.length + sectionSeparator.length) + q2.2), para, ?_, hpara, ?_⟩
          · show (alignOffsets ps (0 + p.length + sectionSeparator.length)).get? j
              = _
            rw [show 0 + p.length + sectionSeparator.length
                = (p.length + sectionSeparator.length) + 0 by omega,
              alignOffsets_add, List.get?_map, hq2]
            rfl
          · cases ps with
            | nil => simp at hj
            | cons p2 ps2 =>
                show pySliceStr (p ++ sectionSeparator ++ joinParagraphs (p2 :: ps2))
                    _ _ = para
                have hlen : p.length + sectionSeparator.length
                    = (p ++ sectionSeparator).length := by simp
                rw [List.append_assoc, ← List.append_assoc, hlen]
                exact (pySlice_append_shift (p ++ sectionSeparator) _ q2.1 q2.2).trans hs2

/-! ## Claim C6 -/

/-- C6 amended: aligning equal-length paragraph lists and reading back
section i returns exactly the whitespace-stripped original paragraph pair
(the offsets already exclude the separator, and get_section_content strips
the slice); in particular the round trip is byte-for-byte exact whenever the
original paragraphs carry no leading or trailing whitespace. -/
theorem alignArticle_roundtrip (mand eng : List Str)
    (hlen : mand.length = eng.length) (i : Nat) (hi : i < mand.length) :
    ∃ mp ep, mand.get? i = some mp ∧ eng.get? i = some ep ∧
      getSectionContent (alignArticle mand eng) (i : Int)
        = Except.ok (pyStrip mp, pyStrip ep) ∧
      (pyStrip mp = mp → pyStrip ep = ep →
        getSectionContent (alignArticle mand eng) (i : Int)
          = Except.ok (mp, ep)) := by
  obtain ⟨qm, mp, hqm, hmp, hsm⟩ := alignOffsets_get_slice mand i hi
  obtain ⟨qe, ep, hqe, hep, hse⟩ :=
    alignOffsets_get_slice eng i (hlen ▸ hi)
  have hcond : ¬ (((alignArticle mand eng).mandarin_section_indices.length : Int)
      ≤ (i : Int) ∨
      ((alignArticle mand eng).english_section_indices.length : Int)
      ≤ (i : Int)) := by
    push_neg
    constructor
    · show ((alignOffsets mand 0).length : Int) > (i : Int)
      rw [length_alignOffsets]
      exact_mod_cast hi
    · show ((alignOffsets eng 0).length : Int) > (i : Int)
      rw [length_alignOffsets]
      exact_mod_cast hlen ▸ hi
  have hmain : getSectionContent (alignArticle mand eng) (i : Int)
      = Except.ok (pyStrip mp, pyStrip ep) := by
    simp only [getSectionContent, if_neg hcond, pyIndex_ofNat]
    show (match (alignOffsets mand 0).get? i, (alignOffsets eng 0).get? i with
      | some mi, some ei => Except.ok
          (pyStrip (pySliceStr (joinParagraphs mand) mi.1 mi.2),
           pyStrip (pySliceStr (joinParagraphs eng) ei.1 ei.2))
      | _, _ => Except.error "IndexError: list index out of range")
      = Except.ok (pyStrip mp, pyStrip ep)
    rw [hqm, hqe]
    show Except.ok (pyStrip (pySliceStr (joinParagraphs mand) qm.1 qm.2),
        pyStrip (pySliceStr (joinParagraphs eng) qe.1 qe.2))
      = Except.ok (pyStrip mp, pyStrip ep)
    rw [hsm, hse]
  exact ⟨mp, ep, hmp, hep, hmain, fun h1 h2 => by rw [hmain, h1, h2]⟩

/-- C6 witness: the amended theorem applied to the concrete two-paragraph
article at index 0. -/
theorem alignArticle_roundtrip_witness :
    (["甲一".data, "甲二".data] : List Str).length
        = (["e one".data, "e two".data] : List Str).length ∧
    0 < (["甲一".data, "甲二".data] : List Str).length ∧
    ∃ mp ep, (["甲一".data, "甲二".data] : List Str).get? 0 = some mp ∧
      (["e one".data, "e two".data] : List Str).get? 0 = some ep ∧
      getSectionContent
          (alignArticle ["甲一".data, "甲二".data] ["e one".data, "e two".data])
          ((0 : Nat) : Int)
        = Except.ok (pyStrip mp, pyStrip ep) ∧
      (pyStrip mp = mp → pyStrip ep = ep →
        getSectionContent
            (alignArticle ["甲一".data, "甲二".data] ["e one".data, "e two".data])
            ((0 : Nat) : Int)
          = Except.ok (mp, ep)) :=
  ⟨by decide, by decide,
   alignArticle_roundtrip ["甲一".data, "甲二".data] ["e one".data, "e two".data]
     (by decide) 0 (by decide)⟩

/-! ## Claim C7 -/

lemma tocflFold_preserves (post : List TocflRow) (wd : List (Str × WordInfo))
    (k : Str) (v : WordInfo)
    (hk : ∀ r2 ∈ post, r2.traditional ≠ k ∧ r2.simplified ≠ k)
    (h : dictGet wd k = some v) :
    dictGet (post.foldl
      (fun wd row =>
        dictSet
          (dictSet wd row.traditional
            { level := row.cefr_level, simplified := row.simplified })
          row.simplified
          { level := row.cefr_level, simplified := row.simplified }) wd) k
      = some v := by
  induction post generalizing wd with
  | nil => simpa using h
  | cons r2 rest ih =>
      simp only [List.foldl_cons]
      apply ih
      · intro r3 h3
        exact hk r3 (List.mem_cons_of_mem _ h3)
      · rw [dictGet_dictSet_ne _ _ _ _ (hk r2 (List.mem_cons_self _ _)).2.symm,
            dictGet_dictSet_ne _ _ _ _ (hk r2 (List.mem_cons_self _ _)).1.symm]
        exact h

/-- C7 amended: for every row of the dictionary source whose two written
forms are not re-bound by any later row, looking up the traditional form and
looking up the simplified form both return that rows level and its simplified
form as the canonical form.  (The unamended claim fails when a later row
re-uses one of the forms: the later binding overwrites the shared key, see
the counterexample.) -/
theorem loadTocflDictionary_forms_consistent (pre post : List TocflRow)
    (r : TocflRow)
    (hpost : ∀ r2 ∈ post,
      r2.traditional ≠ r.traditional ∧ r2.traditional ≠ r.simplified ∧
      r2.simplified ≠ r.traditional ∧ r2.simplified ≠ r.simplified) :
    getWordInfo (loadTocflDictionary (pre ++ r :: post)) r.traditional
        = some { level := r.cefr_level, simplified := r.simplified } ∧
    getWordInfo (loadTocflDictionary (pre ++ r :: post)) r.simplified
        = some { level := r.cefr_level, simplified := r.simplified } := by
  unfold loadTocflDictionary getWordInfo
  rw [List.foldl_append, List.foldl_cons]
  generalize (List.foldl
    (fun wd row =>
      dictSet
        (dictSet wd row.traditional
          { level := row.cefr_level, simplified := row.simplified })
        row.simplified
        { level := row.cefr_level, simplified := row.simplified })
    ([] : List (Str × WordInfo)) pre) = wd1
  have hsimp2 : dictGet
      (dictSet
        (dictSet wd1 r.traditional
          { level := r.cefr_level, simplified := r.simplified })
        r.simplified
        { level := r.cefr_level, simplified := r.simplified }) r.simplified
      = some { level := r.cefr_level, simplified := r.simplified } :=
    dictGet_dictSet_self _ _ _
  have htrad2 : dictGet
      (dictSet
        (dictSet wd1 r.traditional
          { level := r.cefr_level, simplified := r.simplified })
        r.simplified
        { level := r.cefr_level, simplified := r.simplified }) r.traditional
      = some { level := r.cefr_level, simplified := r.simplified } := by
    by_cases he : r.traditional = r.simplified
    · rw [he]
      exact dictGet_dictSet_self _ _ _
    · rw [dictGet_dictSet_ne _ _ _ _ he]
      exact dictGet_dictSet_self _ _ _
  constructor
  · exact tocflFold_preserves post _ r.traditional _
      (fun r2 h2 => ⟨(hpost r2 h2).1, (hpost r2 h2).2.2.1⟩) htrad2
  · exact tocflFold_preserves post _ r.simplified _
      (fun r2 h2 => ⟨(hpost r2 h2).2.1, (hpost r2 h2).2.2.2⟩) hsimp2

/-- C7 witness: the amended theorem applied to a one-row dictionary. -/
theorem loadTocflDictionary_forms_consistent_witness :
    (∀ r2 ∈ ([] : List TocflRow),
      r2.traditional ≠ "學習".data ∧ r2.traditional ≠ "学习".data ∧
      r2.simplified ≠ "學習".data ∧ r2.simplified ≠ "学习".data) ∧
    getWordInfo
        (loadTocflDictionary
          ([] ++ { traditional := "學習".data, simplified := "学习".data,
                   cefr_level := "A2" } :: []))
        "學習".data
      = some { level := "A2", simplified := "学习".data } ∧
    getWordInfo
        (loadTocflDictionary
          ([] ++ { traditional := "學習".data, simplified := "学习".data,
                   cefr_level := "A2" } :: []))
        "学习".data
      = some { level := "A2", simplified := "学习".data } :=
  ⟨fun r2 h2 => absurd h2 (List.not_mem_nil r2),
   (loadTocflDictionary_forms_consistent [] []
     { traditional := "學習".data, simplified := "学习".data,
       cefr_level := "A2" }
     (fun r2 h2 => absurd h2 (List.not_mem_nil r2))).1,
   (loadTocflDictionary_forms_consistent [] []
     { traditional := "學習".data, simplified := "学习".data,
       cefr_level := "A2" }
     (fun r2 h2 => absurd h2 (List.not_mem_nil r2))).2⟩

/-! ## Claim C9 -/

lemma mem_dictSet {α β : Type} [DecidableEq α]
    (l : List (α × β)) (k : α) (v : β) (wg : α × β)
    (h : wg ∈ dictSet l k v) : wg = (k, v) ∨ wg ∈ l := by
  induction l with
  | nil => simpa [dictSet] using h
  | cons p rest ih =>
      obtain ⟨k0, v0⟩ := p
      by_cases h0 : k0 = k
      · subst h0
        simp only [dictSet, if_pos rfl] at h
        rcases List.mem_cons.mp h with rfl | h2
        · exact Or.inl rfl
        · exact Or.inr (List.mem_cons_of_mem _ h2)
      · simp only [dictSet, if_neg h0] at h
        rcases List.mem_cons.mp h with rfl | h2
        · exact Or.inr (List.mem_cons_self _ _)
        · rcases ih h2 with h3 | h3
          · exact Or.inl h3
          · exact Or.inr (List.mem_cons_of_mem _ h3)

lemma typeMapping_values (t cat : String)
    (h : dictGet typeMapping t = some cat) :
    cat = "names" ∨ cat = "places" ∨ cat = "organizations" ∨ cat = "misc" := by
  have hmem := dictGet_mem _ _ _ h
  simp only [typeMapping, List.mem_cons, List.not_mem_nil, or_false,
    Prod.mk.injEq] at hmem
  rcases hmem with ⟨_, rfl⟩ | ⟨_, rfl⟩ | ⟨_, rfl⟩ | ⟨_, rfl⟩ <;> simp

lemma processEntity_map_fst (r : List (String × List (Str × Str)))
    (e : RawEntity)
    (hkeys : r.map Prod.fst = ["names", "places", "organizations", "misc"]) :
    (processEntity r e).map Prod.fst = r.map Prod.fst := by
  unfold processEntity
  by_cases hskip : e.word.getD [] = [] ∨ e.type.getD "" = "" ∨
      e.english.getD [] = []
  · rw [if_pos hskip]
  · rw [if_neg hskip]
    cases hmap : dictGet typeMapping (e.type.getD "") with
    | none => rfl
    | some cat =>
        apply dictSet_map_fst_of_mem
        rw [hkeys]
        rcases typeMapping_values _ _ hmap with rfl | rfl | rfl | rfl <;> simp

lemma extractEntities_fold_map_fst (es : List RawEntity)
    (r : List (String × List (Str × Str)))
    (hkeys : r.map Prod.fst = ["names", "places", "organizations", "misc"]) :
    (es.foldl processEntity r).map Prod.fst
      = ["names", "places", "organizations", "misc"] := by
  induction es generalizing r with
  | nil => simpa using hkeys
  | cons e es ih =>
      simp only [List.foldl_cons]
      exact ih _ ((processEntity_map_fst r e hkeys).trans hkeys)

lemma processEntity_preserves_word (r : List (String × List (Str × Str)))
    (e : RawEntity) (cat : String) (w : Str) (inner : List (Str × Str))
    (hget : dictGet r cat = some inner) (hw : (dictGet inner w).isSome) :
    ∃ inner2, dictGet (processEntity r e) cat = some inner2 ∧
      (dictGet inner2 w).isSome := by
  unfold processEntity
  by_cases hskip : e.word.getD [] = [] ∨ e.type.getD "" = "" ∨
      e.english.getD [] = []
  · rw [if_pos hskip]
    exact ⟨inner, hget, hw⟩
  · rw [if_neg hskip]
    cases hmap : dictGet typeMapping (e.type.getD "") with
    | none => exact ⟨inner, hget, hw⟩
    | some cat2 =>
        dsimp only
        by_cases hcat : cat2 = cat
        · subst hcat
          rw [hget]
          refine ⟨dictSet inner (e.word.getD []) (e.english.getD []),
            dictGet_dictSet_self _ _ _, ?_⟩
          by_cases hww : w = e.word.getD []
          · subst hww
            rw [dictGet_dictSet_self]
            rfl
          · rw [dictGet_dictSet_ne _ _ _ _ hww]
            exact hw
        · refine ⟨inner, ?_, hw⟩
          rw [dictGet_dictSet_ne _ _ _ _ (fun hh => hcat hh.symm)]
          exact hget

lemma extractEntities_fold_preserves_word (es : List RawEntity)
    (r : List (String × List (Str × Str)))
    (cat : String) (w : Str) (inner : List (Str × Str))
    (hget : dictGet r cat = some inner) (hw : (dictGet inner w).isSome) :
    ∃ inner2, dictGet (es.foldl processEntity r) cat = some inner2 ∧
      (dictGet inner2 w).isSome := by
  induction es generalizing r inner with
  | nil => exact ⟨inner, hget, hw⟩
  | cons e es ih =>
      simp only [List.foldl_cons]
      obtain ⟨inner2, hg2, hw2⟩ := processEntity_preserves_word r e cat w inner hget hw
      exact ih _ _ hg2 hw2

lemma processEntity_establishes (r : List (String × List (Str × Str)))
    (e : RawEntity) (cat : String)
    (hwf : entityWellFormed e)
    (hmap : dictGet typeMapping (e.type.getD "") = some cat) :
    ∃ inner, dictGet (processEntity r e) cat = some inner ∧
      dictGet inner (e.word.getD []) = some (e.english.getD []) := by
  obtain ⟨hw, ht, hg, _⟩ := hwf
  unfold processEntity
  rw [if_neg (by tauto), hmap]
  exact ⟨dictSet ((dictGet r cat).getD []) (e.word.getD []) (e.english.getD []),
    dictGet_dictSet_self _ _ _, dictGet_dictSet_self _ _ _⟩

lemma processEntity_sound (r : List (String × List (Str × Str)))
    (e : RawEntity) (cat : String) (inner : List (Str × Str)) (wg : Str × Str)
    (hget : dictGet (processEntity r e) cat = some inner) (hwg : wg ∈ inner) :
    (∃ inner0, dictGet r cat = some inner0 ∧ wg ∈ inner0) ∨
      (entityWellFormed e ∧ e.word.getD [] = wg.1 ∧
        e.english.getD [] = wg.2 ∧
        dictGet typeMapping (e.type.getD "") = some cat) := by
  unfold processEntity at hget
  by_cases hskip : e.word.getD [] = [] ∨ e.type.getD "" = "" ∨
      e.english.getD [] = []
  · rw [if_pos hskip] at hget
    exact Or.inl ⟨inner, hget, hwg⟩
  · rw [if_neg hskip] at hget
    cases hmap : dictGet typeMapping (e.type.getD "") with
    | none =>
        rw [hmap] at hget
        exact Or.inl ⟨inner, hget, hwg⟩
    | some cat2 =>
        rw [hmap] at hget
        by_cases hcat : cat2 = cat
        · subst hcat
          rw [dictGet_dictSet_self] at hget
          cases hget
          rcases mem_dictSet _ _ _ _ hwg with rfl | h2
          · push_neg at hskip
            exact Or.inr ⟨⟨hskip.1, hskip.2.1, hskip.2.2,
              by simp [hmap]⟩, rfl, rfl, rfl⟩
          · cases hr : dictGet r cat2 with
            | none =>
                rw [hr] at h2
                simp [dictGet] at h2
            | some inner0 =>
                rw [hr] at h2
                simp only [Option.getD_some] at h2
                exact Or.inl ⟨inner0, rfl, h2⟩
        · rw [dictGet_dictSet_ne _ _ _ _ (fun hh => hcat hh.symm)] at hget
          exact Or.inl ⟨inner, hget, hwg⟩

lemma extractEntities_fold_sound (es : List RawEntity)
    (r : List (String × List (Str × Str)))
    (cat : String) (inner : List (Str × Str)) (wg : Str × Str)
    (hget : dictGet (es.foldl processEntity r) cat = some inner)
    (hwg : wg ∈ inner) :
    (∃ inner0, dictGet r cat = some inner0 ∧ wg ∈ inner0) ∨
      (∃ e ∈ es, entityWellFormed e ∧ e.word.getD [] = wg.1 ∧
        e.english.getD [] = wg.2 ∧
        dictGet typeMapping (e.type.getD "") = some cat) := by
  induction es generalizing r with
  | nil => exact Or.inl ⟨inner, hget, hwg⟩
  | cons e es ih =>
      simp only [List.foldl_cons] at hget
      rcases ih _ hget with ⟨inner0, hg0, hwg0⟩ | ⟨e2, he2, hrest⟩
      · rcases processEntity_sound r e cat inner0 wg hg0 hwg0 with h | h
        · exact Or.inl h
        · exact Or.inr ⟨e, List.mem_cons_self _ _, h⟩
      · exact Or.inr ⟨e2, List.mem_cons_of_mem _ he2, hrest⟩

lemma initEntityResult_inner (cat : String) (inner : List (Str × Str))
    (h : dictGet initEntityResult cat = some inner) : inner = [] := by
  simp only [initEntityResult, dictGet] at h
  split_ifs at h <;> simp_all

/-- C9 amended: the resolver output always carries exactly the four category
keys in order; an entry with a falsy or unmapped field contributes nothing
and raises nothing (the fold is total and only well-formed entries reach the
tables); every well-formed entry has its word present under its mapped
category; and every stored pair stems from some well-formed entry with that
word, that gloss and that category.  (The unamended claim fails only in that
when several well-formed entries share a word and category, the later gloss
overwrites the earlier one, so an earlier entry need not appear with its own
gloss: see the counterexample.) -/
theorem extractEntities_categories_and_membership (es : List RawEntity) :
    (extractEntities (some es)).map Prod.fst
        = ["names", "places", "organizations", "misc"] ∧
    (∀ e ∈ es, entityWellFormed e →
      ∃ cat inner, dictGet typeMapping (e.type.getD "") = some cat ∧
        dictGet (extractEntities (some es)) cat = some inner ∧
        (dictGet inner (e.word.getD [])).isSome) ∧
    (∀ cat inner, dictGet (extractEntities (some es)) cat = some inner →
      ∀ wg ∈ inner, ∃ e ∈ es, entityWellFormed e ∧
        e.word.getD [] = wg.1 ∧ e.english.getD [] = wg.2 ∧
        dictGet typeMapping (e.type.getD "") = some cat) := by
  refine ⟨extractEntities_fold_map_fst es initEntityResult (by decide), ?_, ?_⟩
  · intro e hmem hwf
    obtain ⟨cat, hmap⟩ := Option.isSome_iff_exists.mp hwf.2.2.2
    obtain ⟨pre, post, rfl⟩ := List.append_of_mem hmem
    obtain ⟨inner1, hg1, hw1⟩ := processEntity_establishes
      (pre.foldl processEntity initEntityResult) e cat hwf hmap
    obtain ⟨inner2, hg2, hw2⟩ := extractEntities_fold_preserves_word post _
      cat (e.word.getD []) inner1 hg1 (by rw [hw1]; rfl)
    refine ⟨cat, inner2, hmap, ?_, hw2⟩
    show dictGet ((pre ++ e :: post).foldl processEntity initEntityResult) cat
        = some inner2
    rw [List.foldl_append, List.foldl_cons]
    exact hg2
  · intro cat inner hget wg hwg
    rcases extractEntities_fold_sound es initEntityResult cat inner wg hget hwg
      with ⟨inner0, hg0, hwg0⟩ | h
    · rw [initEntityResult_inner cat inner0 hg0] at hwg0
      simp at hwg0
    · exact h

/-- C9 witness: the amended theorem applied to the raw list of the spec
example (second entry missing its word), at the well-formed first entry. -/
theorem extractEntities_categories_and_membership_witness :
    (extractEntities
        (some [{ word := some "馬斯克".data, type := some "person",
                 english := some "Elon Musk".data },
               { word := none, type := some "place",
                 english := some "Seattle".data }])).map Prod.fst
      = ["names", "places", "organizations", "misc"] ∧
    ({ word := some "馬斯克".data, type := some "person",
       english := some "Elon Musk".data } : RawEntity)
      ∈ [{ word := some "馬斯克".data, type := some "person",
           english := some "Elon Musk".data },
         { word := none, type := some "place",
           english := some "Seattle".data }] ∧
    entityWellFormed { word := some "馬斯克".data, type := some "person",
                       english := some "Elon Musk".data } ∧
    ∃ cat inner,
      dictGet typeMapping
          (({ word := some "馬斯克".data, type := some "person",
              english := some "Elon Musk".data } : RawEntity).type.getD "")
        = some cat ∧
      dictGet (extractEntities
          (some [{ word := some "馬斯克".data, type := some "person",
                   english := some "Elon Musk".data },
                 { word := none, type := some "place",
                   english := some "Seattle".data }])) cat = some inner ∧
      (dictGet inner
          (({ word := some "馬斯克".data, type := some "person",
              english := some "Elon Musk".data } : RawEntity).word.getD [])).isSome :=
  ⟨(extractEntities_categories_and_membership _).1,
   by decide, by decide,
   (extractEntities_categories_and_membership _).2.1 _ (by decide) (by decide)⟩

/-! ## Claim C5 -/

lemma bind_ok {ε α β : Type} (a : α) (f : α → Except ε β) :
    ((Except.ok a : Except ε α) >>= f) = f a := rfl

lemma bind_error {ε α β : Type} (e : ε) (f : α → Except ε β) :
    ((Except.error e : Except ε α) >>= f) = Except.error e := rfl

lemma resultAdd_ok (res : List (String × List Str)) (level : String) (w : Str)
    (hk : (dictGet res level).isSome) :
    ∃ s res2, dictGet res level = some s ∧
      resultAdd res level w = Except.ok res2 ∧
      res2.map Prod.fst = res.map Prod.fst ∧
      (∀ t, t ∈ groupUnion res2 ↔ t = w ∨ t ∈ groupUnion res) := by
  obtain ⟨s, hs⟩ := Option.isSome_iff_exists.mp hk
  refine ⟨s, dictSet res level (setAdd s w), hs, ?_, ?_, ?_⟩
  · unfold resultAdd
    rw [hs]
  · exact dictSet_map_fst_of_mem _ _ _ ((dictGet_isSome_iff_mem _ _).mp hk)
  · exact mem_groupUnion_dictSet_setAdd res level s w hs

lemma resultAdd_ok_keys (res : List (String × List Str)) (level : String)
    (w : Str) (res2 : List (String × List Str))
    (h : resultAdd res level w = Except.ok res2) :
    res2.map Prod.fst = res.map Prod.fst := by
  unfold resultAdd at h
  cases hs : dictGet res level with
  | none =>
      rw [hs] at h
      cases h
  | some s =>
      rw [hs] at h
      cases h
      exact dictSet_map_fst_of_mem _ _ _
        ((dictGet_isSome_iff_mem _ _).mp (by rw [hs]; rfl))

lemma categorizeKnown_spec (wd : List (Str × WordInfo))
    (hwd : ∀ p ∈ wd, p.2.level ∈ cefrLevels) :
    ∀ (ws : List Str) (res : List (String × List Str)) (unknown : List Str),
    res.map Prod.fst = cefrLevels →
    ∃ res2 unknown2,
      categorizeKnown wd ws res unknown = Except.ok (res2, unknown2) ∧
      res2.map Prod.fst = cefrLevels ∧
      (∀ t, t ∈ groupUnion res2 ↔
        (∃ w ∈ ws, ∃ info, getWordInfo wd w = some info ∧ t = info.simplified)
          ∨ t ∈ groupUnion res) ∧
      (∀ t, t ∈ unknown2 ↔
        (t ∈ ws ∧ getWordInfo wd t = none) ∨ t ∈ unknown) := by
  intro ws
  induction ws with
  | nil =>
      intro res unknown hkeys
      exact ⟨res, unknown, rfl, hkeys, by simp, by simp⟩
  | cons w ws ih =>
      intro res unknown hkeys
      cases hinfo : getWordInfo wd w with
      | some info =>
          have hlev : info.level ∈ cefrLevels :=
            hwd (w, info) (dictGet_mem _ _ _ hinfo)
          have hk : (dictGet res info.level).isSome :=
            (dictGet_isSome_iff_mem _ _).mpr (by rw [hkeys]; exact hlev)
          obtain ⟨s, res2, hs, hok, hkeys2, huni⟩ :=
            resultAdd_ok res info.level info.simplified hk
          obtain ⟨res3, unknown3, hok3, hkeys3, huni3, hunk3⟩ :=
            ih res2 unknown (hkeys2.trans hkeys)
          refine ⟨res3, unknown3, ?_, hkeys3, ?_, ?_⟩
          · simp only [categorizeKnown, hinfo, hok, bind_ok]
            exact hok3
          · intro t
            rw [huni3 t, huni t]
            constructor
            · rintro (⟨w2, hw2, i, hi, ht⟩ | h | h)
              · exact Or.inl ⟨w2, List.mem_cons_of_mem _ hw2, i, hi, ht⟩
              · exact Or.inl ⟨w, List.mem_cons_self _ _, info, hinfo, h⟩
              · exact Or.inr h
            · rintro (⟨w2, hw2, i, hi, ht⟩ | h)
              · rcases List.mem_cons.mp hw2 with rfl | hw2x
                · rw [hinfo] at hi
                  cases hi
                  exact Or.inr (Or.inl ht)
                · exact Or.inl ⟨w2, hw2x, i, hi, ht⟩
              · exact Or.inr (Or.inr h)
          · intro t
            rw [hunk3 t]
            constructor
            · rintro (⟨h1, h2⟩ | h)
              · exact Or.inl ⟨List.mem_cons_of_mem _ h1, h2⟩
              · exact Or.inr h
            · rintro (⟨h1, h2⟩ | h)
              · rcases List.mem_cons.mp h1 with rfl | h1x
                · rw [hinfo] at h2
                  cases h2
                · exact Or.inl ⟨h1x, h2⟩
              · exact Or.inr h
      | none =>
          obtain ⟨res3, unknown3, hok3, hkeys3, huni3, hunk3⟩ :=
            ih res (setAdd unknown w) hkeys
          refine ⟨res3, unknown3, ?_, hkeys3, ?_, ?_⟩
          · simp only [categorizeKnown, hinfo]
            exact hok3
          · intro t
            rw [huni3 t]
            constructor
            · rintro (⟨w2, hw2, i, hi, ht⟩ | h)
              · exact Or.inl ⟨w2, List.mem_cons_of_mem _ hw2, i, hi, ht⟩
              · exact Or.inr h
            · rintro (⟨w2, hw2, i, hi, ht⟩ | h)
              · rcases List.mem_cons.mp hw2 with rfl | hw2x
                · rw [hinfo] at hi
                  cases hi
                · exact Or.inl ⟨w2, hw2x, i, hi, ht⟩
              · exact Or.inr h
          · intro t
            rw [hunk3 t, mem_setAdd]
            constructor
            · rintro (⟨h1, h2⟩ | h | h)
              · exact Or.inl ⟨List.mem_cons_of_mem _ h1, h2⟩
              · subst h
                exact Or.inl ⟨List.mem_cons_self _ _, hinfo⟩
              · exact Or.inr h
            · rintro (⟨h1, h2⟩ | h)
              · rcases List.mem_cons.mp h1 with rfl | h1x
                · exact Or.inr (Or.inl rfl)
                · exact Or.inl ⟨h1x, h2⟩
              · exact Or.inr (Or.inr h)

lemma categorizeClassified_spec :
    ∀ (m : List (Str × String)) (res : List (String × List Str))
      (unknown : List Str),
    (∀ p ∈ m, p.2 ∈ cefrLevels) →
    res.map Prod.fst = cefrLevels →
    ∃ res2 unknown2,
      categorizeClassified m res unknown = Except.ok (res2, unknown2) ∧
      res2.map Prod.fst = cefrLevels ∧
      (∀ t, t ∈ groupUnion res2 ↔
        (∃ p ∈ m, t = p.1) ∨ t ∈ groupUnion res) ∧
      (∀ t, t ∈ unknown2 ↔ t ∈ unknown ∧ ∀ p ∈ m, t ≠ p.1) := by
  intro m
  induction m with
  | nil =>
      intro res unknown _ hkeys
      exact ⟨res, unknown, rfl, hkeys, by simp, by simp⟩
  | cons p rest ih =>
      obtain ⟨w, l⟩ := p
      intro res unknown hm hkeys
      have hlev : l ∈ cefrLevels := hm (w, l) (List.mem_cons_self _ _)
      have hk : (dictGet res l).isSome :=
        (dictGet_isSome_iff_mem _ _).mpr (by rw [hkeys]; exact hlev)
      obtain ⟨s, res2, hs, hok, hkeys2, huni⟩ := resultAdd_ok res l w hk
      obtain ⟨res3, unknown3, hok3, hkeys3, huni3, hunk3⟩ :=
        ih res2 (unknown.filter (fun u => u ≠ w))
          (fun q hq => hm q (List.mem_cons_of_mem _ hq)) (hkeys2.trans hkeys)
      refine ⟨res3, unknown3, ?_, hkeys3, ?_, ?_⟩
      · simp only [categorizeClassified, hok, bind_ok]
        exact hok3
      · intro t
        rw [huni3 t, huni t]
        constructor
        · rintro (⟨q, hq, ht⟩ | h | h)
          · exact Or.inl ⟨q, List.mem_cons_of_mem _ hq, ht⟩
          · exact Or.inl ⟨(w, l), List.mem_cons_self _ _, h⟩
          · exact Or.inr h
        · rintro (⟨q, hq, ht⟩ | h)
          · rcases List.mem_cons.mp hq with rfl | hqx
            · exact Or.inr (Or.inl ht)
            · exact Or.inl ⟨q, hqx, ht⟩
          · exact Or.inr (Or.inr h)
      · intro t
        rw [hunk3 t, List.mem_filter]
        simp only [decide_eq_true_eq]
        constructor
        · rintro ⟨⟨h1, h2⟩, h3⟩
          refine ⟨h1, ?_⟩
          intro q hq
          rcases List.mem_cons.mp hq with rfl | hqx
          · exact h2
          · exact h3 q hqx
        · rintro ⟨h1, h2⟩
          exact ⟨⟨h1, h2 (w, l) (List.mem_cons_self _ _)⟩,
            fun q hq => h2 q (List.mem_cons_of_mem _ hq)⟩

lemma addRemainingUnknown_spec :
    ∀ (ws : List Str) (res : List (String × List Str)),
    res.map Prod.fst = cefrLevels →
    ∃ res2, addRemainingUnknown ws res = Except.ok res2 ∧
      res2.map Prod.fst = cefrLevels ∧
      (∀ t, t ∈ groupUnion res2 ↔ t ∈ ws ∨ t ∈ groupUnion res) := by
  intro ws
  induction ws with
  | nil =>
      intro res hkeys
      exact ⟨res, rfl, hkeys, by simp⟩
  | cons w ws ih =>
      intro res hkeys
      have hk : (dictGet res "unknown").isSome :=
        (dictGet_isSome_iff_mem _ _).mpr (by rw [hkeys]; decide)
      obtain ⟨s, res2, hs, hok, hkeys2, huni⟩ := resultAdd_ok res "unknown" w hk
      obtain ⟨res3, hok3, hkeys3, huni3⟩ := ih res2 (hkeys2.trans hkeys)
      refine ⟨res3, ?_, hkeys3, ?_⟩
      · simp only [addRemainingUnknown, hok, bind_ok]
        exact hok3
      · intro t
        rw [huni3 t, huni t]
        simp only [List.mem_cons]
        tauto

lemma mem_groupUnion_iff (groups : List (String × List Str)) (t : Str) :
    t ∈ groupUnion groups ↔ ∃ g ∈ groups, t ∈ g.2 := by
  induction groups with
  | nil => simp [groupUnion]
  | cons g gs ih =>
      rw [groupUnion_cons]
      simp only [List.mem_append, List.mem_cons, ih]
      constructor
      · rintro (h | ⟨g2, hg2, ht⟩)
        · exact ⟨g, Or.inl rfl, h⟩
        · exact ⟨g2, Or.inr hg2, ht⟩
      · rintro ⟨g2, rfl | hg2, ht⟩
        · exact Or.inl ht
        · exact Or.inr ⟨g2, hg2, ht⟩

lemma finalizeGroups_union (res : List (String × List Str)) (t : Str) :
    t ∈ groupUnion (finalizeGroups res) ↔ t ∈ groupUnion res := by
  rw [mem_groupUnion_iff, mem_groupUnion_iff]
  constructor
  · rintro ⟨g, hg, ht⟩
    simp only [finalizeGroups, List.mem_filter, List.mem_map] at hg
    obtain ⟨⟨p, hp, rfl⟩, _⟩ := hg
    exact ⟨p, hp, (mem_sortStrs t _).mp ht⟩
  · rintro ⟨g, hg, ht⟩
    refine ⟨(g.1, sortStrs g.2), ?_, (mem_sortStrs t _).mpr ht⟩
    simp only [finalizeGroups, List.mem_filter, List.mem_map,
      decide_eq_true_eq]
    exact ⟨⟨g, hg, rfl⟩,
      List.ne_nil_of_mem ((mem_sortStrs t _).mpr ht)⟩

lemma finalizeGroups_keys (res : List (String × List Str)) :
    ∀ g ∈ finalizeGroups res, g.1 ∈ res.map Prod.fst := by
  intro g hg
  simp only [finalizeGroups, List.mem_filter, List.mem_map] at hg
  obtain ⟨⟨p, hp, rfl⟩, _⟩ := hg
  exact List.mem_map.mpr ⟨p, hp, rfl⟩

lemma canonicalize_some (wd : List (Str × WordInfo)) (w : Str)
    (info : WordInfo) (h : getWordInfo wd w = some info) :
    canonicalize wd w = info.simplified := by
  unfold canonicalize
  rw [h]

lemma canonicalize_none (wd : List (Str × WordInfo)) (w : Str)
    (h : getWordInfo wd w = none) : canonicalize wd w = w := by
  unfold canonicalize
  rw [h]

lemma createOrderedDict_keys : createOrderedDict.map Prod.fst = cefrLevels := by
  decide

lemma createOrderedDict_union : groupUnion createOrderedDict = [] := by
  decide

lemma categorizeKnown_ok_keys (wd : List (Str × WordInfo)) :
    ∀ (ws : List Str) (res : List (String × List Str)) (unknown : List Str)
      (out : List (String × List Str) × List Str),
    categorizeKnown wd ws res unknown = Except.ok out →
    out.1.map Prod.fst = res.map Prod.fst := by
  intro ws
  induction ws with
  | nil =>
      intro res unknown out h
      cases h
      rfl
  | cons w ws ih =>
      intro res unknown out h
      cases hinfo : getWordInfo wd w with
      | some info =>
          simp only [categorizeKnown, hinfo] at h
          cases hra : resultAdd res info.level info.simplified with
          | error e =>
              rw [hra, bind_error] at h
              cases h
          | ok res2 =>
              rw [hra, bind_ok] at h
              exact (ih res2 unknown out h).trans (resultAdd_ok_keys _ _ _ _ hra)
      | none =>
          simp only [categorizeKnown, hinfo] at h
          exact ih _ _ _ h

lemma categorizeClassified_ok_keys :
    ∀ (m : List (Str × String)) (res : List (String × List Str))
      (unknown : List Str) (out : List (String × List Str) × List Str),
    categorizeClassified m res unknown = Except.ok out →
    out.1.map Prod.fst = res.map Prod.fst := by
  intro m
  induction m with
  | nil =>
      intro res unknown out h
      cases h
      rfl
  | cons p rest ih =>
      obtain ⟨w, l⟩ := p
      intro res unknown out h
      simp only [categorizeClassified] at h
      cases hra : resultAdd res l w with
      | error e =>
          rw [hra, bind_error] at h
          cases h
      | ok res2 =>
          rw [hra, bind_ok] at h
          exact (ih res2 _ out h).trans (resultAdd_ok_keys _ _ _ _ hra)

lemma addRemainingUnknown_ok_keys :
    ∀ (ws : List Str) (res : List (String × List Str))
      (out : List (String × List Str)),
    addRemainingUnknown ws res = Except.ok out →
    out.map Prod.fst = res.map Prod.fst := by
  intro ws
  induction ws with
  | nil =>
      intro res out h
      cases h
      rfl
  | cons w ws ih =>
      intro res out h
      simp only [addRemainingUnknown] at h
      cases hra : resultAdd res "unknown" w with
      | error e =>
          rw [hra, bind_error] at h
          cases h
      | ok res2 =>
          rw [hra, bind_ok] at h
          exact (ih res2 out h).trans (resultAdd_ok_keys _ _ _ _ hra)

/-- C5 amended: whenever categorize_words returns, every tier key of the
grouped output belongs to the fixed tier set; and (under the contract that
the dictionary carries valid tiers and the fallback classifier returns valid
tiers for a subset of the words it was asked about) the union of all groups
equals the set of distinct input tokens with every dictionary-known token
replaced by its canonical simplified form.  (The unamended claim fails only
in that the union need not contain the input spelling of a known token: see
the counterexample.) -/
theorem categorizeWords_tiers_and_union (wd : List (Str × WordInfo))
    (words : List Str) :
    (∀ (fallback : Option (List (Str × String)))
       (groups : List (String × List Str)),
       categorizeWords wd words fallback = Except.ok groups →
       ∀ g ∈ groups, g.1 ∈ cefrLevels) ∧
    (∀ (m : List (Str × String)),
       (∀ p ∈ wd, p.2.level ∈ cefrLevels) →
       (∀ p ∈ m, p.2 ∈ cefrLevels ∧ p.1 ∈ words ∧ getWordInfo wd p.1 = none) →
       ∃ groups, categorizeWords wd words (some m) = Except.ok groups ∧
         ∀ t, t ∈ groupUnion groups ↔ t ∈ words.map (canonicalize wd)) := by
  constructor
  · intro fallback groups hok g hg
    unfold categorizeWords at hok
    cases h1 : categorizeKnown wd words createOrderedDict [] with
    | error e =>
        rw [h1, bind_error] at hok
        cases hok
    | ok p1 =>
        rw [h1, bind_ok] at hok
        have hfin : ∀ (p2 : List (String × List Str) × List Str),
            (addRemainingUnknown p2.2 p2.1 >>= fun res =>
              Except.ok (finalizeGroups res)) = Except.ok groups →
            p2.1.map Prod.fst = cefrLevels →
            g.1 ∈ cefrLevels := by
          intro p2 htail hk2
          cases h3 : addRemainingUnknown p2.2 p2.1 with
          | error e =>
              rw [h3, bind_error] at htail
              cases htail
          | ok res =>
              rw [h3, bind_ok] at htail
              cases htail
              have hmem := finalizeGroups_keys res g hg
              rw [addRemainingUnknown_ok_keys _ _ _ h3, hk2] at hmem
              exact hmem
        have hk1 : p1.1.map Prod.fst = cefrLevels :=
          (categorizeKnown_ok_keys wd words _ _ _ h1).trans
            createOrderedDict_keys
        by_cases hne : p1.2 ≠ []
        · rw [if_pos hne] at hok
          cases hcl : classifyUnknownWords p1.2 fallback with
          | none =>
              simp only [hcl, bind_error] at hok
              cases hok
          | some m =>
              simp only [hcl] at hok
              cases h2 : categorizeClassified m p1.1 p1.2 with
              | error e =>
                  rw [h2, bind_error] at hok
                  cases hok
              | ok p2 =>
                  rw [h2, bind_ok] at hok
                  exact hfin p2 hok
                    ((categorizeClassified_ok_keys _ _ _ _ h2).trans hk1)
        · rw [if_neg hne, bind_ok] at hok
          exact hfin p1 hok hk1
  · intro m hwd hm
    obtain ⟨res1, unk1, h1, hkeys1, huni1, hunk1⟩ :=
      categorizeKnown_spec wd hwd words createOrderedDict []
        createOrderedDict_keys
    by_cases hne : unk1 ≠ []
    · have hcl : classifyUnknownWords unk1 (some m) = some m := by
        unfold classifyUnknownWords
        rw [if_neg hne]
      obtain ⟨res2, unk2, h2, hkeys2, huni2, hunk2⟩ :=
        categorizeClassified_spec m res1 unk1
          (fun p hp => (hm p hp).1) hkeys1
      obtain ⟨res3, h3, hkeys3, huni3⟩ :=
        addRemainingUnknown_spec unk2 res2 hkeys2
      refine ⟨finalizeGroups res3, ?_, ?_⟩
      · unfold categorizeWords
        rw [h1, bind_ok, if_pos hne]
        simp only [hcl]
        rw [h2, bind_ok, h3, bind_ok]
      · intro t
        rw [finalizeGroups_union, huni3 t, huni2 t, huni1 t, hunk2 t,
          hunk1 t, createOrderedDict_union, List.mem_map]
        simp only [List.not_mem_nil, or_false, and_false, false_or]
        constructor
        · rintro (⟨⟨ht1, ht2⟩, _⟩ | ⟨p, hp, rfl⟩ | ⟨w, hw, info, hi, rfl⟩)
          · exact ⟨t, ht1, canonicalize_none wd t ht2⟩
          · obtain ⟨_, hp2, hp3⟩ := hm p hp
            exact ⟨p.1, hp2, canonicalize_none wd p.1 hp3⟩
          · exact ⟨w, hw, canonicalize_some wd w info hi⟩
        · rintro ⟨w, hw, rfl⟩
          cases hlk : getWordInfo wd w with
          | some info =>
              exact Or.inr (Or.inr ⟨w, hw, info, hlk,
                canonicalize_some wd w info hlk⟩)
          | none =>
              rw [canonicalize_none wd w hlk]
              by_cases hq : ∃ p ∈ m, w = p.1
              · obtain ⟨p, hp, rfl⟩ := hq
                exact Or.inr (Or.inl ⟨p, hp, rfl⟩)
              · push_neg at hq
                exact Or.inl ⟨⟨hw, hlk⟩, hq⟩
    · push_neg at hne
      obtain ⟨res3, h3, hkeys3, huni3⟩ :=
        addRemainingUnknown_spec unk1 res1 hkeys1
      refine ⟨finalizeGroups res3, ?_, ?_⟩
      · unfold categorizeWords
        rw [h1, bind_ok, if_neg (by simpa using hne), bind_ok]
        dsimp only
        rw [h3, bind_ok]
      · intro t
        rw [finalizeGroups_union, huni3 t, huni1 t, hunk1 t,
          createOrderedDict_union, List.mem_map]
        simp only [List.not_mem_nil, or_false, false_or]
        constructor
        · rintro (⟨ht1, ht2⟩ | ⟨w, hw, info, hi, rfl⟩)
          · exact ⟨t, ht1, canonicalize_none wd t ht2⟩
          · exact ⟨w, hw, canonicalize_some wd w info hi⟩
        · rintro ⟨w, hw, rfl⟩
          cases hlk : getWordInfo wd w with
          | some info =>
              exact Or.inr ⟨w, hw, info, hlk,
                canonicalize_some wd w info hlk⟩
          | none =>
              rw [canonicalize_none wd w hlk]
              exact Or.inl ⟨hw, hlk⟩

/-- C5 witness: both parts of the amended theorem applied to the dictionary
entry 學習/学习 (A2), the words 學習 and 電腦, and a fallback classifying
電腦 as B1. -/
theorem categorizeWords_tiers_and_union_witness :
    (categorizeWords
        (loadTocflDictionary
          [{ traditional := "學習".data, simplified := "学习".data,
             cefr_level := "A2" }])
        ["學習".data, "電腦".data] (some [("電腦".data, "B1")])
      = Except.ok [("A2", ["学习".data]), ("B1", ["電腦".data])] ∧
     ("A2", ["学习".data])
       ∈ [("A2", ["学习".data]), ("B1", ["電腦".data])] ∧
     ("A2" : String) ∈ cefrLevels) ∧
    ((∀ p ∈ loadTocflDictionary
          [{ traditional := "學習".data, simplified := "学习".data,
             cefr_level := "A2" }], p.2.level ∈ cefrLevels) ∧
     (∀ p ∈ [("電腦".data, "B1")], p.2 ∈ cefrLevels ∧
        p.1 ∈ ["學習".data, "電腦".data] ∧
        getWordInfo
          (loadTocflDictionary
            [{ traditional := "學習".data, simplified := "学习".data,
               cefr_level := "A2" }]) p.1 = none) ∧
     ∃ groups,
       categorizeWords
           (loadTocflDictionary
             [{ traditional := "學習".data, simplified := "学习".data,
                cefr_level := "A2" }])
           ["學習".data, "電腦".data] (some [("電腦".data, "B1")])
         = Except.ok groups ∧
       ∀ t, t ∈ groupUnion groups ↔
         t ∈ (["學習".data, "電腦".data].map
           (canonicalize
             (loadTocflDictionary
               [{ traditional := "學習".data, simplified := "学习".data,
                  cefr_level := "A2" }])))) :=
  ⟨⟨by decide, by decide,
    (categorizeWords_tiers_and_union
      (loadTocflDictionary
        [{ traditional := "學習".data, simplified := "学习".data,
           cefr_level := "A2" }])
      ["學習".data, "電腦".data]).1 (some [("電腦".data, "B1")])
      [("A2", ["学习".data]), ("B1", ["電腦".data])] (by decide)
      ("A2", ["学习".data]) (by decide)⟩,
   by decide, by decide,
   (categorizeWords_tiers_and_union
      (loadTocflDictionary
        [{ traditional := "學習".data, simplified := "学习".data,
           cefr_level := "A2" }])
      ["學習".data, "電腦".data]).2 [("電腦".data, "B1")]
     (by decide) (by decide)⟩

/-! ## Claim C4 -/

lemma mem_addWordsToDictionary_of_mem_dict :
    ∀ (ws : List Str) (d : JiebaDict) (w : Str),
    w ∈ d → w ∈ addWordsToDictionary d ws := by
  intro ws
  induction ws with
  | nil =>
      intro d w h
      exact h
  | cons x ws ih =>
      intro d w h
      show w ∈ addWordsToDictionary (jiebaAddWord d x) ws
      apply ih
      unfold jiebaAddWord
      by_cases hx : x ∈ d
      · rw [if_pos hx]
        exact h
      · rw [if_neg hx]
        exact List.mem_append_left _ h

lemma mem_addWordsToDictionary_of_mem_words :
    ∀ (ws : List Str) (d : JiebaDict) (w : Str),
    w ∈ ws → w ∈ addWordsToDictionary d ws := by
  intro ws
  induction ws with
  | nil =>
      intro d w h
      simp at h
  | cons x ws ih =>
      intro d w h
      rcases List.mem_cons.mp h with rfl | h2
      · show w ∈ addWordsToDictionary (jiebaAddWord d w) ws
        apply mem_addWordsToDictionary_of_mem_dict
        unfold jiebaAddWord
        by_cases hx : w ∈ d
        · rw [if_pos hx]
          exact hx
        · rw [if_neg hx]
          exact List.mem_append_right _ (List.mem_singleton.mpr rfl)
      · exact ih _ _ h2

lemma addWordsToDictionary_of_subset :
    ∀ (ws : List Str) (d : JiebaDict),
    (∀ w ∈ ws, w ∈ d) → addWordsToDictionary d ws = d := by
  intro ws
  induction ws with
  | nil =>
      intro d _
      rfl
  | cons x ws ih =>
      intro d h
      show addWordsToDictionary (jiebaAddWord d x) ws = d
      have hx : x ∈ d := h x (List.mem_cons_self _ _)
      unfold jiebaAddWord
      rw [if_pos hx]
      exact ih d (fun w hw => h w (List.mem_cons_of_mem _ hw))

lemma addWords_idem (d : JiebaDict) (ws : List Str) :
    addWordsToDictionary (addWordsToDictionary d ws) ws
      = addWordsToDictionary d ws :=
  addWordsToDictionary_of_subset ws _
    (fun w hw => mem_addWordsToDictionary_of_mem_words ws d w hw)

lemma segmentText_eq_of_fixed (d1 : JiebaDict) (t : Str) (custom : List Str)
    (h : addWordsToDictionary d1 custom = d1) :
    segmentText d1 t custom = (collectCleaned (jiebaCut d1 t), d1) := by
  unfold segmentText
  by_cases hc : custom ≠ []
  · rw [if_pos hc, h]
  · rw [if_neg hc]

lemma segmentText_snd_fixed (d : JiebaDict) (text : Str) (custom : List Str) :
    addWordsToDictionary ((segmentText d text custom).2) custom
      = (segmentText d text custom).2 := by
  show addWordsToDictionary
      (if custom ≠ [] then addWordsToDictionary d custom else d) custom
    = (if custom ≠ [] then addWordsToDictionary d custom else d)
  by_cases hc : custom ≠ []
  · rw [if_pos hc]
    exact addWords_idem d custom
  · push_neg at hc
    subst hc
    simp only [ne_eq, not_true_eq_false, if_false]
    rfl

lemma segmentArticle_fold (custom : List Str) :
    ∀ (g : List (String × Str)) (acc : List (String × List Str))
      (d1 : JiebaDict),
    addWordsToDictionary d1 custom = d1 →
    g.foldl (fun acc lc =>
        let seg := segmentText acc.2 lc.2 custom
        (acc.1 ++ [(lc.1, seg.1)], seg.2)) (acc, d1)
      = (acc ++ g.map (fun lc => (lc.1, collectCleaned (jiebaCut d1 lc.2))),
         d1) := by
  intro g
  induction g with
  | nil =>
      intro acc d1 _
      simp
  | cons lc g ih =>
      intro acc d1 h
      simp only [List.foldl_cons]
      have hstep : (let seg := segmentText (acc, d1).2 lc.2 custom
          ((acc, d1).1 ++ [(lc.1, seg.1)], seg.2))
          = (acc ++ [(lc.1, collectCleaned (jiebaCut d1 lc.2))], d1) := by
        show (acc ++ [(lc.1, (segmentText d1 lc.2 custom).1)],
            (segmentText d1 lc.2 custom).2) = _
        rw [segmentText_eq_of_fixed d1 lc.2 custom h]
      rw [hstep, ih _ _ h, List.append_assoc]
      rfl

lemma segmentArticle_eq (d : JiebaDict) (a : ArticleIdx)
    (custom : List Str) :
    segmentArticle d a custom
      = (("native", (segmentText d a.mandarin_content custom).1) ::
          a.graded_content.map (fun lc =>
            (lc.1, collectCleaned
              (jiebaCut (segmentText d a.mandarin_content custom).2 lc.2))),
         (segmentText d a.mandarin_content custom).2) := by
  unfold segmentArticle
  exact segmentArticle_fold custom a.graded_content _ _
    (segmentText_snd_fixed d a.mandarin_content custom)

lemma dictGet_map_processText (l : List (String × List Str))
    (wlm : List (Str × String)) (ed : List (String × List (Str × Str)))
    (pin : Option (List (Str × Str))) (k : String) :
    dictGet (l.map (fun lv => (lv.1, processText lv.2 wlm ed pin))) k
      = (dictGet l k).map (fun v => processText v wlm ed pin) :=
  dictGet_map_value l (fun v => processText v wlm ed pin) k

lemma dictGet_map_segTokens (l : List (String × Str)) (d2 : JiebaDict)
    (k : String) :
    dictGet (l.map (fun lc => (lc.1, collectCleaned (jiebaCut d2 lc.2)))) k
      = (dictGet l k).map (fun c => collectCleaned (jiebaCut d2 c)) :=
  dictGet_map_value l (fun c => collectCleaned (jiebaCut d2 c)) k

lemma dictGet_cons_self {α β : Type} [DecidableEq α] (k : α) (v : β)
    (l : List (α × β)) : dictGet ((k, v) :: l) k = some v := by
  simp [dictGet]

lemma dictGet_cons_ne {α β : Type} [DecidableEq α] (k0 : α) (v : β)
    (l : List (α × β)) (k : α) (h : k0 ≠ k) :
    dictGet ((k0, v) :: l) k = dictGet l k := by
  simp [dictGet, h]

/-- C4: in the processing pipeline the markup of the native variant is
computed by annotating the tokens segmented from the original
mandarin_content, and the markup of each graded variant is computed by
annotating the tokens obtained by segmenting that variants own rewritten
text with the same custom vocabulary (not the original contents token
list).  The word-level map fed to every variant is the one derived from the
native tokens. -/
theorem processArticle_markup_uses_own_tokens
    (d : JiebaDict) (wd : List (Str × WordInfo)) (a : ArticleIdx)
    (entityResponse : Option (List RawEntity))
    (fallbackMap fallbackCat : Option (List (Str × String)))
    (res : ProcessedArticle)
    (hok : processArticlePipeline d wd a entityResponse fallbackMap
      fallbackCat = Except.ok res)
    (hnodup : (a.graded_content.map Prod.fst).Nodup)
    (hnat : ∀ lc ∈ a.graded_content, lc.1 ≠ "native") :
    ∃ wlm,
      getWordLevelMap wd
          (segmentText d a.mandarin_content
            (getAllEntities (extractEntities entityResponse))).1 fallbackMap
        = Except.ok wlm ∧
      dictGet res.html_versions "native"
        = some (processText
            (segmentText d a.mandarin_content
              (getAllEntities (extractEntities entityResponse))).1
            wlm (extractEntities entityResponse) none) ∧
      ∀ lc ∈ a.graded_content,
        dictGet res.html_versions lc.1
          = some (processText
              (segmentText
                (segmentText d a.mandarin_content
                  (getAllEntities (extractEntities entityResponse))).2
                lc.2
                (getAllEntities (extractEntities entityResponse))).1
              wlm (extractEntities entityResponse) none) := by
  simp only [processArticlePipeline, segmentArticle_eq, dictGet_cons_self,
    Option.getD_some] at hok
  cases hW : getWordLevelMap wd
      (segmentText d a.mandarin_content
        (getAllEntities (extractEntities entityResponse))).1 fallbackMap with
  | error e =>
      rw [hW, bind_error] at hok
      cases hok
  | ok wlm =>
      rw [hW, bind_ok] at hok
      cases hC : categorizeWords wd
          (segmentText d a.mandarin_content
            (getAllEntities (extractEntities entityResponse))).1
          fallbackCat with
      | error e =>
          rw [hC, bind_error] at hok
          cases hok
      | ok wl =>
          rw [hC, bind_ok] at hok
          cases hok
          refine ⟨wlm, rfl, ?_, ?_⟩
          · simp only [List.map_cons, dictGet_cons_self]
          · intro lc hlc
            have hmem : (lc.1, lc.2) ∈ a.graded_content := by
              simpa using hlc
            simp only [List.map_cons]
            rw [dictGet_cons_ne _ _ _ _ (fun hh => hnat lc hlc hh.symm),
              dictGet_map_processText, dictGet_map_segTokens,
              dictGet_of_mem_nodup _ _ _ hmem hnodup,
              segmentText_eq_of_fixed _ _ _
                (segmentText_snd_fixed d a.mandarin_content
                  (getAllEntities (extractEntities entityResponse)))]
            rfl

/-- C4 witness: the theorem applied to a one-word article with one graded
version, no entities, and an empty dictionary (both classifier calls return
the empty map, so both words fall back to the unknown tier). -/
theorem processArticle_markup_uses_own_tokens_witness :
    processArticlePipeline [] []
        { mandarin_content := "你".data, english_content := "you".data,
          mandarin_section_indices := [(0, 1)],
          english_section_indices := [(0, 3)],
          graded_content := [("b1", "我".data)] }
        none (some []) (some [])
      = Except.ok
          { html_versions :=
              [("native", "<span class=\"word-unknown\">你</span>".data),
               ("b1", "<span class=\"word-unknown\">我</span>".data)],
            entities := [("names", []), ("places", []),
              ("organizations", []), ("misc", [])],
            word_levels := [("unknown", [['你']])] } ∧
    (([("b1", "我".data)] : List (String × Str)).map Prod.fst).Nodup ∧
    (∀ lc ∈ ([("b1", "我".data)] : List (String × Str)), lc.1 ≠ "native") ∧
    ∃ wlm,
      getWordLevelMap []
          (segmentText [] "你".data
            (getAllEntities (extractEntities none))).1 (some [])
        = Except.ok wlm ∧
      dictGet
          ({ html_versions :=
              [("native", "<span class=\"word-unknown\">你</span>".data),
               ("b1", "<span class=\"word-unknown\">我</span>".data)],
             entities := [("names", []), ("places", []),
               ("organizations", []), ("misc", [])],
             word_levels := [("unknown", [['你']])] }
            : ProcessedArticle).html_versions "native"
        = some (processText
            (segmentText [] "你".data
              (getAllEntities (extractEntities none))).1
            wlm (extractEntities none) none) ∧
      ∀ lc ∈ ([("b1", "我".data)] : List (String × Str)),
        dictGet
            ({ html_versions :=
                [("native", "<span class=\"word-unknown\">你</span>".data),
                 ("b1", "<span class=\"word-unknown\">我</span>".data)],
               entities := [("names", []), ("places", []),
                 ("organizations", []), ("misc", [])],
               word_levels := [("unknown", [['你']])] }
              : ProcessedArticle).html_versions lc.1
          = some (processText
              (segmentText
                (segmentText [] "你".data
                  (getAllEntities (extractEntities none))).2
                lc.2
                (getAllEntities (extractEntities none))).1
              wlm (extractEntities none) none) :=
  ⟨by decide, by decide, by decide,
   processArticle_markup_uses_own_tokens [] []
     { mandarin_content := "你".data, english_content := "you".data,
       mandarin_section_indices := [(0, 1)],
       english_section_indices := [(0, 3)],
       graded_content := [("b1", "我".data)] }
     none (some []) (some [])
     { html_versions :=
         [("native", "<span class=\"word-unknown\">你</span>".data),
          ("b1", "<span class=\"word-unknown\">我</span>".data)],
       entities := [("names", []), ("places", []),
         ("organizations", []), ("misc", [])],
       word_levels := [("unknown", [['你']])] }
     (by decide) (by decide) (by decide)⟩
